import Mathlib

/-!
Verification development for the sketch-guided decoding/search engine of
`nsm/agent_factory.py` (class `PGAgent`): the stochastic Sampler
(`PGAgent.sample`) and the sketch-guided Beam Search Engine
(`PGAgent.new_beam_search`).

The embedding is shallow: the engine's control flow, bookkeeping and
buffer re-indexing are translated directly from the Python source.
External collaborators (interpreter environment, neural encoder/decoder,
sketch predictor/encoder, the random choices of `np.random.choice` and
`torch.multinomial`) are modelled as opaque deterministic oracles packed
into a `World` structure; log-probability scores are exact integers (only addition, multiplication by a 0/1 mask, and order comparisons are ever applied to scores).
-/

namespace NSM

/-- A program sketch: an ordered sequence of template tokens together with
its prior log-probability (`Sketch.prob` in the source). -/
structure Sketch where
  tokens : List String
  prob : ℤ
deriving DecidableEq

/-- An interpreter environment (`QAProgrammingEnv`, owned externally).
The mutable execution state is the program built so far; the interpreter's
reaction (valid actions, done/error flags) is an opaque function of that
program.  `lookup` is the decoder vocabulary (`env.de_vocab.lookup`). -/
structure Env where
  name : String
  lookup : String → Nat
  validF : List Nat → List Nat
  doneF : List Nat → Bool
  errorF : List Nat → Bool
  program : List Nat

/-- `env.valid_actions`: absolute ids of currently valid actions. -/
def Env.validActions (e : Env) : List Nat := e.validF e.program

/-- `env.done` flag. -/
def Env.done (e : Env) : Bool := e.doneF e.program

/-- `env.error` flag. -/
def Env.error (e : Env) : Bool := e.errorF e.program

/-- `env.step(rel_action_id)`: append the chosen valid action to the program. -/
def Env.stepRel (e : Env) (rel : Nat) : Env :=
  { e with program := e.program ++ [e.validActions.getD rel 0] }

/-- `env.clone()`: in the pure model cloning is the identity (the deep-copy
contract of the source means diverging branches never alias). -/
def Env.clone (e : Env) : Env := e

def defaultEnv : Env :=
  { name := "", lookup := fun _ => 0, validF := fun _ => [], doneF := fun _ => false,
    errorF := fun _ => false, program := [] }

def defaultSketch : Sketch := ⟨[], 0⟩

/-- `Trajectory.from_environment`: the completed program of an environment. -/
structure Traj where
  name : String
  program : List Nat
deriving DecidableEq

def Traj.fromEnv (e : Env) : Traj := ⟨e.name, e.program⟩

/-- The `Sample` namedtuple: a trajectory with its reported probability field. -/
structure Sample where
  traj : Traj
  prob : ℤ
deriving DecidableEq

/-- One row of the batched recurrent decoder state.  The decoder is an
opaque collaborator, so a row is modelled freely by its construction
history: `get_initial_state` makes an `init` row (salted with its batch
position) and each `decoder.step` call wraps it with the observation fed
at that step. -/
inductive DecRow where
  | init (pos : Nat) (ctx : Env) (sk : Sketch)
  | step (ob : Env) (prev : DecRow)

def defaultRow : DecRow := .init 0 defaultEnv defaultSketch

/-- The opaque external collaborators, as deterministic oracles.
* `isVarSlot` — `Sketch.is_variable_slot` on a token.
* `getSketches` — `sketch_predictor.get_sketches` restricted to one
  environment (the source call is batched but per-environment).
* `drawIdx` — the `np.random.choice` draw: index of the k-th sampled
  sketch for an environment.
* `sampleAct` / `sampleLogProb` — the `torch.multinomial` sample of
  `sample_action` and its masked log-softmax log-probability, as a
  function of the decoder-state row and the observation fed to the step.
* `actionScore` — one entry of the score matrix returned by
  `step_and_get_action_scores_t`; `none` models a non-finite entry
  (the `math.isinf` test in the source). -/
structure World where
  isVarSlot : String → Bool
  getSketches : Env → List Sketch
  drawIdx : Env → Nat → Nat
  sampleAct : DecRow → Env → Nat
  sampleLogProb : DecRow → Env → ℤ
  actionScore : DecRow → Env → Nat → Option ℤ

/-- Modelled from the spec: the sketch encoder (`SketchEncoder`, not under
`src/`) produces per sketch the `var_time_step_mask` row, "a per-step
'is this a variable-grounding step' mask aligned with each sketch's
length": 1 exactly on variable slots, 0 on fixed tokens and out of range. -/
def varMask (w : World) (sk : Sketch) (t : Nat) : ℤ :=
  match sk.tokens[t]? with
  | some tok => if w.isVarSlot tok then 1 else 0
  | none => 0

/-- Modelled from the spec: `Sketch.__eq__` (not under `src/`) is
"token-sequence equality", used for sketch-coverage bookkeeping. -/
def skeq (a b : Sketch) : Bool := a.tokens == b.tokens

/-- Errors that abort a search: `indexError` models the explicit
`raise ValueError()` on sketch/time-step desynchronization (and Python
`IndexError` on an out-of-range sketch access), `assertionError` the
failing `assert` path, `outOfFuel` a run longer than the given fuel. -/
inductive RunErr where
  | indexError
  | assertionError
  | outOfFuel
deriving DecidableEq

/-- Result of a search run. -/
inductive Res (α : Type) where
  | ok (val : α)
  | err (e : RunErr)
deriving DecidableEq

/-! ## The Sampler (`PGAgent.sample`, lines 248-422) -/

/-- A completed rollout recorded by the Sampler (`completed_envs` entry,
line 378): the finished environment and the reported score
`sketch.prob + sample_probs[env_id]`.  The governing sketch and the list
of per-step masked log-probability contributions actually added into
`sample_probs` are carried along as ghost data for the statements; they
do not influence the computation. -/
structure CompletedEntry where
  env : Env
  prob : ℤ
  sketch : Sketch
  contribs : List ℤ

/-- Loop state of `PGAgent.sample`: the per-hypothesis parallel buffers.
`active` doubles as the `observations_tm1` buffer (an observation is
modelled by the environment that produced it); `t` is the decoder step
counter (`state_tm1.t`). -/
structure SState where
  t : Nat
  active : List Env
  sketches : List Sketch
  ctx : List Env
  skEnc : List Sketch
  dec : List DecRow
  probs : List ℤ
  contribs : List (List ℤ)
  completed : List CompletedEntry

/-- `state_t`: one batched decoder step over all active rows (line 322). -/
def decStepped (st : SState) : List DecRow :=
  (List.range st.active.length).map fun i =>
    .step (st.active.getD i defaultEnv) (st.dec.getD i defaultRow)

/-- The masked log-probability added into `sample_probs` for row `i`
(lines 343-344): the sampled action's log-probability times column `t` of
the `var_time_step_mask` row held in the sketch-encoding buffer. -/
def stepContrib (w : World) (st : SState) (i : Nat) : ℤ :=
  w.sampleLogProb (st.dec.getD i defaultRow) (st.active.getD i defaultEnv)
    * varMask w (st.skEnc.getD i defaultSketch) st.t

/-- `sample_probs = sample_probs + sampled_action_t_prob * variable_mask`
(line 344). -/
def stepProbs (w : World) (st : SState) : List ℤ :=
  (List.range st.active.length).map fun i => st.probs.getD i 0 + stepContrib w st i

/-- Ghost mirror of `stepProbs`: the per-row contribution lists. -/
def stepContribsList (w : World) (st : SState) : List (List ℤ) :=
  (List.range st.active.length).map fun i => st.contribs.getD i [] ++ [stepContrib w st i]

/-- Outcome of processing one active hypothesis at one step. -/
inductive HypOut where
  | fail (e : RunErr)
  | completedOk (c : CompletedEntry)
  | survive (e : Env)
  | dropInvalid

/-- The token of hypothesis `i`'s sketch at the current step
(`sketch[state_t.t - 1]`, line 359). -/
def tokenAt (st : SState) (i : Nat) : String :=
  (st.sketches.getD i defaultSketch).tokens.getD st.t ""

/-- The action the Sampler actually executes for hypothesis `i`: the
sampled action on a variable slot, otherwise the vocabulary lookup of the
fixed sketch token, overriding the sample (lines 360-372). -/
def chosenAction (w : World) (st : SState) (i : Nat) : Nat :=
  if w.isVarSlot (tokenAt st i) then
    w.sampleAct (st.dec.getD i defaultRow) (st.active.getD i defaultEnv)
  else (st.active.getD i defaultEnv).lookup (tokenAt st i)

/-- Processing of one active hypothesis inside the rollout loop
(lines 350-389): the desynchronization guard
(`if state_t.t - 1 >= len(sketch): raise ValueError()`), sketch forcing,
validity test, environment step, and classification of the result.  On a
variable slot whose sampled action is invalid the source reaches an
`assert` over a name bound only on the fixed-token branch; any such run
dies with an exception, modelled as `.fail .assertionError`. -/
def processHyp (w : World) (st : SState) (i : Nat) : HypOut :=
  let env := st.active.getD i defaultEnv
  let sk := st.sketches.getD i defaultSketch
  if sk.tokens.length ≤ st.t then .fail .indexError
  else
    let act := chosenAction w st i
    if act ∈ env.validActions then
      let env' := env.stepRel (env.validActions.indexOf act)
      if env'.done then
        .completedOk ⟨env', sk.prob + (stepProbs w st).getD i 0, sk,
                      (stepContribsList w st).getD i []⟩
      else .survive env'
    else
      if w.isVarSlot (tokenAt st i) then .fail .assertionError else .dropInvalid

/-- Surviving positions, in order (`new_active_env_pos`, line 385). -/
def survivorIdx (w : World) (st : SState) : List Nat :=
  (List.range st.active.length).filter fun i =>
    match processHyp w st i with | .survive _ => true | _ => false

/-- Surviving environments, in order (`new_active_envs`, also the next
`observations_t`, lines 384-386). -/
def survivorEnvs (w : World) (st : SState) : List Env :=
  (List.range st.active.length).filterMap fun i =>
    match processHyp w st i with | .survive e => some e | _ => none

/-- Completed entries recorded during this step, tagged with the position
of the hypothesis that produced each (lines 377-381). -/
def stepCompleted (w : World) (st : SState) : List (Nat × CompletedEntry) :=
  (List.range st.active.length).filterMap fun i =>
    match processHyp w st i with | .completedOk c => some (i, c) | _ => none

/-- The first exception raised while the per-hypothesis loop runs, if
any; an exception propagates and aborts the whole search. -/
def stepError (w : World) (st : SState) : Option RunErr :=
  ((List.range st.active.length).filterMap fun i =>
    match processHyp w st i with | .fail e => some e | _ => none).head?

/-- `has_completed_sample` (lines 349, 382, 389). -/
def hasCompletedSample (w : World) (st : SState) : Bool :=
  (List.range st.active.length).any fun i =>
    match processHyp w st i with
    | .completedOk _ => true | .dropInvalid => true | _ => false

/-- One iteration of the Sampler's rollout loop (lines 320-408): batched
decoder step, probability accumulation, per-hypothesis advance, and the
re-indexing of every parallel buffer by the surviving positions.  The
slicing is performed only when `has_completed_sample` is set, exactly as
in the source (lines 394-406). -/
def sampleStep (w : World) (st : SState) : Res SState :=
  match stepError w st with
  | some e => .err e
  | none =>
    let pos := survivorIdx w st
    let probs1 := stepProbs w st
    let contribs1 := stepContribsList w st
    let dec1 := decStepped st
    let completed1 := st.completed ++ (stepCompleted w st).map (·.2)
    if hasCompletedSample w st then
      .ok { t := st.t + 1,
            active := survivorEnvs w st,
            sketches := pos.map fun i => st.sketches.getD i defaultSketch,
            ctx := pos.map fun i => st.ctx.getD i defaultEnv,
            skEnc := pos.map fun i => st.skEnc.getD i defaultSketch,
            dec := pos.map fun i => dec1.getD i defaultRow,
            probs := pos.map fun i => probs1.getD i 0,
            contribs := pos.map fun i => contribs1.getD i [],
            completed := completed1 }
    else
      .ok { t := st.t + 1, active := survivorEnvs w st,
            sketches := st.sketches, ctx := st.ctx, skEnc := st.skEnc,
            dec := dec1, probs := probs1, contribs := contribs1,
            completed := completed1 }

/-- The rollout loop: iterate `sampleStep` until no active hypothesis
remains (`if not new_active_env_pos: break`, line 391). -/
def sampleLoop (w : World) : Nat → SState → Res (List CompletedEntry)
  | 0, _ => .err .outOfFuel
  | fuel+1, st =>
    match sampleStep w st with
    | .err e => .err e
    | .ok st' => if st'.active.isEmpty then .ok st'.completed else sampleLoop w fuel st'

/-- Sketch sampling and environment cloning (lines 267-303): for each
environment, `n` sketches drawn by the random-choice oracle (environments
with no candidate sketches are skipped), one cloned environment per drawn
sketch, flattened in environment order. -/
def flattenSketchEnvs (w : World) (n : Nat) : List Env → List (Sketch × Env)
  | [] => []
  | e :: rest =>
    (if (w.getSketches e).isEmpty then []
     else (List.range n).map fun k =>
       ((w.getSketches e).getD (w.drawIdx e k % (w.getSketches e).length) defaultSketch,
        e.clone)) ++ flattenSketchEnvs w n rest

/-- Initial loop state (lines 309-318): context/sketch encodings per
flattened hypothesis, initial decoder state, zero running scores. -/
def sampleInit (pairs : List (Sketch × Env)) : SState :=
  { t := 0,
    active := pairs.map (·.2),
    sketches := pairs.map (·.1),
    ctx := pairs.map (·.2),
    skEnc := pairs.map (·.1),
    dec := pairs.enum.map fun pe => .init pe.1 pe.2.2 pe.2.1,
    probs := List.replicate pairs.length 0,
    contribs := List.replicate pairs.length [],
    completed := [] }

/-- `PGAgent.sample` up to the completed-rollout pool (lines 248-408).
The `use_cache=True` path only filters the input environments through the
external cache and is not modelled. -/
def sampleRun (w : World) (envs : List Env) (sampleNum fuel : Nat) :
    Res (List CompletedEntry) :=
  if sampleNum = 0 then .ok []
  else
    let pairs := flattenSketchEnvs w sampleNum envs
    if pairs.isEmpty then .ok []
    else sampleLoop w fuel (sampleInit pairs)

/-- `PGAgent.sample`: completed rollouts whose environment has no error
flag, converted to `Sample`s (lines 413-422). -/
def sampleImpl (w : World) (envs : List Env) (sampleNum fuel : Nat) :
    Res (List Sample) :=
  match sampleRun w envs sampleNum fuel with
  | .err e => .err e
  | .ok cs =>
    .ok ((cs.filter fun c => !c.env.error).map fun c => ⟨Traj.fromEnv c.env, c.prob⟩)

/-! ## The Beam Search Engine (`PGAgent.new_beam_search`, lines 424-745) -/

/-- A `Hypothesis` namedtuple of the beam search (line 434), extended
with the ghost list of the per-step masked score contributions that were
added into its score along its path. -/
structure BHyp where
  sketch : Sketch
  env : Env
  score : ℤ
  contribs : List ℤ

/-- A `CandidateHyp` namedtuple (lines 436-439), ghost-extended the same
way (`human_action_token` is logging-only and dropped). -/
structure ContHyp where
  sketch : Sketch
  prevEnv : Env
  actionId : Nat
  relActionId : Nat
  score : ℤ
  prevPos : Nat
  contribs : List ℤ

/-- An entry of the per-question ranking pool `all_candidates`
(line 637): an already-completed hypothesis or a continuing candidate. -/
inductive Cand where
  | done (h : BHyp)
  | cont (c : ContHyp)

def Cand.score : Cand → ℤ
  | .done h => h.score
  | .cont c => c.score

def Cand.sketch : Cand → Sketch
  | .done h => h.sketch
  | .cont c => c.sketch

/-- Insertion into a descending-sorted list, placed before the first
element of smaller-or-equal score: an earlier list element stays before
later elements with equal score, so the resulting sort is the unique
stable descending sort — the behaviour of Python's
`list.sort(key=lambda hyp: hyp.score, reverse=True)` (line 638). -/
def insertDesc {α : Type} (f : α → ℤ) (x : α) : List α → List α
  | [] => [x]
  | y :: ys => if f y ≤ f x then x :: y :: ys else y :: insertDesc f x ys

/-- Stable descending sort by a score key. -/
def sortDesc {α : Type} (f : α → ℤ) : List α → List α
  | [] => []
  | x :: xs => insertDesc f x (sortDesc f xs)

/-- The distinct sketches of a beam (`set(hyp.sketch for hyp in beam)`,
line 676), first occurrences under token equality; the source's Python
set is only used for membership, emptiness and difference, so the
ordering of this list is irrelevant. -/
def dedupSketches : List Sketch → List Sketch
  | [] => []
  | s :: rest => s :: (dedupSketches rest).filter fun x => !skeq x s

/-- Candidate continuations of one live hypothesis at step `t`
(lines 575-634).  On a variable-grounding slot every currently valid
action whose masked score entry is finite becomes a candidate, scored by
`masked action score + hyp_scores_tm1[pos]`; on a fixed token the
vocabulary action for that token, if currently valid, yields a single
candidate carrying the hypothesis's unchanged score; an invalid fixed
action yields no candidate.  An out-of-range sketch access
(`hyp_sketch[state_tm1.t]`, line 577) is a Python `IndexError`. -/
def genHypCands (w : World) (t : Nat) (dec : List DecRow) (obs : List Env)
    (skEnc : List Sketch) (hypScores : List ℤ) (pos : Nat) (hyp : BHyp) :
    Res (List Cand) :=
  match hyp.sketch.tokens[t]? with
  | none => .err .indexError
  | some tok =>
    if w.isVarSlot tok then
      let row := dec.getD pos defaultRow
      let ob := obs.getD pos defaultEnv
      let mask := varMask w (skEnc.getD pos defaultSketch) t
      .ok (hyp.env.validActions.enum.filterMap fun ra =>
        match w.actionScore row ob ra.2 with
        | none => none
        | some s => some (.cont ⟨hyp.sketch, hyp.env, ra.2, ra.1,
            s * mask + hypScores.getD pos 0, pos, hyp.contribs ++ [s * mask]⟩))
    else
      let a := hyp.env.lookup tok
      if a ∈ hyp.env.validActions then
        .ok [.cont ⟨hyp.sketch, hyp.env, a, hyp.env.validActions.indexOf a,
          hyp.score, pos, hyp.contribs ++ [0]⟩]
      else .ok []

/-- Outcome classification of applying one pool entry. -/
inductive COut where
  | toCompleted (h : BHyp)
  | toBeam (h : BHyp) (parent : Nat)
  | droppedError

/-- What `_add_hypothesis_to_new_beam` does with a pool entry
(lines 654-672): an already-completed hypothesis goes back into the
completed pool; a continuing candidate clones its parent environment and
executes its action — completion without error joins the completed pool,
completion with the error flag is silently dropped, and otherwise the new
hypothesis joins the new beam. -/
def candOutcome (c : Cand) : COut :=
  match c with
  | .done h => .toCompleted h
  | .cont ch =>
    let env' := ch.prevEnv.clone.stepRel ch.relActionId
    if env'.done then
      if env'.error then .droppedError
      else .toCompleted ⟨ch.sketch, env', ch.score, ch.contribs⟩
    else .toBeam ⟨ch.sketch, env', ch.score, ch.contribs⟩ ch.prevPos

/-- Per-question accumulation while the ranked pool is applied: the new
beam, the rebuilt completed pool, and the global re-indexing data
(`new_hyp_parent_abs_pos_list`, `observations_t`, `new_hyp_scores`). -/
structure EnvAcc where
  newBeam : List BHyp
  completedNew : List BHyp
  parents : List Nat
  obsAdds : List Env
  scoreAdds : List ℤ

def emptyAcc : EnvAcc := ⟨[], [], [], [], []⟩

/-- Effect of `_add_hypothesis_to_new_beam` on the accumulators. -/
def applyCand (c : Cand) (acc : EnvAcc) : EnvAcc :=
  match candOutcome c with
  | .toCompleted h => { acc with completedNew := acc.completedNew ++ [h] }
  | .toBeam h parent =>
    { acc with
      newBeam := acc.newBeam ++ [h], parents := acc.parents ++ [parent],
      obsAdds := acc.obsAdds ++ [h.env], scoreAdds := acc.scoreAdds ++ [h.score] }
  | .droppedError => acc

/-- The merge-and-prune loop over the ranked pool (lines 674-704): admit
every entry while fewer than `beamSize` pool entries have been looked at;
past that, `force_sketch_coverage` admits an entry exactly when its
sketch still has an uncovered representative; the counter
`new_beam_size` advances on every pool entry, admitted or not. -/
def pruneLoop (beamSize : Nat) (force : Bool) :
    List Cand → Nat → List Sketch → EnvAcc → EnvAcc
  | [], _, _, acc => acc
  | c :: rest, cnt, notCov, acc =>
    if cnt < beamSize then
      pruneLoop beamSize force rest (cnt+1)
        (if force then notCov.filter (fun s => !skeq s c.sketch) else notCov)
        (applyCand c acc)
    else if force && !notCov.isEmpty then
      if (notCov.filter fun s => skeq s c.sketch).isEmpty then
        pruneLoop beamSize force rest (cnt+1) notCov acc
      else
        pruneLoop beamSize force rest (cnt+1)
          (notCov.filter fun s => !skeq s c.sketch) (applyCand c acc)
    else pruneLoop beamSize force rest (cnt+1) notCov acc

/-- Candidate generation over one question's live beam, in beam order;
the absolute position of the `prev_hyp_id`-th hypothesis is
`beam_start + prev_hyp_id` (line 607). -/
def genBeamCands (w : World) (t : Nat) (dec : List DecRow) (obs : List Env)
    (skEnc : List Sketch) (hypScores : List ℤ) :
    Nat → List BHyp → Res (List Cand)
  | _, [] => .ok []
  | start, hyp :: rest =>
    match genHypCands w t dec obs skEnc hypScores start hyp with
    | .err e => .err e
    | .ok cs =>
      match genBeamCands w t dec obs skEnc hypScores (start+1) rest with
      | .err e => .err e
      | .ok more => .ok (cs ++ more)

/-- One question's expansion, ranking and pruning (lines 565-706): pool
the question's previously completed hypotheses with this step's candidate
continuations, rank by score descending, and run the pruning loop with
the not-yet-covered sketch set initialised to the distinct sketches of
the prior beam. -/
def envBeamStep (w : World) (t beamSize : Nat) (force : Bool)
    (dec : List DecRow) (obs : List Env) (skEnc : List Sketch) (hypScores : List ℤ)
    (start : Nat) (beam : List BHyp) (prevCompleted : List BHyp) : Res EnvAcc :=
  match genBeamCands w t dec obs skEnc hypScores start beam with
  | .err e => .err e
  | .ok conts =>
    .ok (pruneLoop beamSize force
          (sortDesc Cand.score (prevCompleted.map Cand.done ++ conts))
          0 (dedupSketches (beam.map (·.sketch))) emptyAcc)

/-- Loop state of `new_beam_search`: the per-question ordered beams and
completed pools plus the flattened per-hypothesis parallel buffers.
`obs` is `observations_tm1` (an observation modelled by the environment
that produced it). -/
structure BState where
  t : Nat
  beams : List (String × List BHyp)
  completed : List (String × List BHyp)
  dec : List DecRow
  obs : List Env
  hypScores : List ℤ
  ctx : List Env
  skEnc : List Sketch

/-- OrderedDict lookup with default `[]`. -/
def getAssoc (k : String) : List (String × List BHyp) → List BHyp
  | [] => []
  | (k', v) :: rest => if k' == k then v else getAssoc k rest

/-- OrderedDict assignment (`completed_hyps[name] = ...`). -/
def setAssoc (k : String) (v : List BHyp) :
    List (String × List BHyp) → List (String × List BHyp)
  | [] => [(k, v)]
  | (k', v') :: rest => if k' == k then (k, v) :: rest else (k', v') :: setAssoc k v rest

/-- Result of folding the per-question processing across the beams dict. -/
structure FoldOut where
  newBeams : List (String × List BHyp)
  completed : List (String × List BHyp)
  parents : List Nat
  obsAdds : List Env
  scoreAdds : List ℤ

/-- The per-question loop (lines 565-706) across the beams OrderedDict:
`beam_start` advances by each question's live beam size, each question's
completed pool is re-read and rewritten in place, a question enters
`new_beams` only if it received at least one live hypothesis
(`new_beams.setdefault`), and the global re-indexing lists concatenate in
question order. -/
def beamsFold (w : World) (t beamSize : Nat) (force : Bool)
    (dec : List DecRow) (obs : List Env) (skEnc : List Sketch) (hypScores : List ℤ) :
    Nat → List (String × List BHyp) → List (String × List BHyp) → Res FoldOut
  | _, [], completed => .ok ⟨[], completed, [], [], []⟩
  | start, (name, beam) :: rest, completed =>
    match envBeamStep w t beamSize force dec obs skEnc hypScores start beam
            (getAssoc name completed) with
    | .err e => .err e
    | .ok acc =>
      match beamsFold w t beamSize force dec obs skEnc hypScores
              (start + beam.length) rest (setAssoc name acc.completedNew completed) with
      | .err e => .err e
      | .ok out =>
        .ok { newBeams := (if acc.newBeam.isEmpty then [] else [(name, acc.newBeam)])
                            ++ out.newBeams,
              completed := out.completed,
              parents := acc.parents ++ out.parents,
              obsAdds := acc.obsAdds ++ out.obsAdds,
              scoreAdds := acc.scoreAdds ++ out.scoreAdds }

/-- The flattened hypotheses of the beams dict, in dict-then-beam order. -/
def joinHyps (beams : List (String × List BHyp)) : List BHyp :=
  (beams.map (·.2)).flatten

/-- `state_t` of the beam-search step (line 541): one decoder step over
every live row. -/
def bDecStepped (st : BState) : List DecRow :=
  (List.range (joinHyps st.beams).length).map fun i =>
    .step (st.obs.getD i defaultEnv) (st.dec.getD i defaultRow)

/-- One iteration of the beam-search loop (lines 534-729): batched
decoder step, per-question expansion/ranking/pruning, and the gather of
the decoder state, the context-encoding buffer and the sketch-encoding
buffer by `new_hyp_parent_abs_pos_list`, with the observation and score
buffers rebuilt from the admitted hypotheses (lines 714-727). -/
def beamStep (w : World) (beamSize : Nat) (force : Bool) (st : BState) : Res BState :=
  let dec1 := bDecStepped st
  match beamsFold w st.t beamSize force st.dec st.obs st.skEnc st.hypScores
          0 st.beams st.completed with
  | .err e => .err e
  | .ok out =>
    .ok { t := st.t + 1,
          beams := out.newBeams,
          completed := out.completed,
          dec := out.parents.map fun p => dec1.getD p defaultRow,
          obs := out.obsAdds,
          hypScores := out.scoreAdds,
          ctx := out.parents.map fun p => st.ctx.getD p defaultEnv,
          skEnc := out.parents.map fun p => st.skEnc.getD p defaultSketch }

/-- The `while beams:` loop (line 534, with the `len(new_beams) == 0`
break folded into the next round's emptiness test). -/
def beamLoop (w : World) (beamSize : Nat) (force : Bool) :
    Nat → BState → Res (List (String × List BHyp))
  | 0, st => if st.beams.isEmpty then .ok st.completed else .err .outOfFuel
  | fuel+1, st =>
    if st.beams.isEmpty then .ok st.completed
    else
      match beamStep w beamSize force st with
      | .err e => .err e
      | .ok st' => beamLoop w beamSize force fuel st'

/-- Constraint-sketch lookup, `constraint_sketches.get(env.name, [])`
(line 467). -/
def lookupSketches (k : String) : List (String × List Sketch) → List Sketch
  | [] => []
  | (k', v) :: rest => if k' == k then v else lookupSketches k rest

/-- Per-question candidate sketches (lines 462-469): the supplied
constraint sketches when the constraint dict is truthy (present and
non-empty), otherwise the sketch predictor's top sketches. -/
def envSketches (w : World) (cs : Option (List (String × List Sketch))) (e : Env) :
    List Sketch :=
  match cs with
  | some m => if m.isEmpty then w.getSketches e else lookupSketches e.name m
  | none => w.getSketches e

/-- Initial beams (lines 474-491): one hypothesis per candidate sketch of
each question, on a clone of the question's environment, initialised with
the sketch's prior log-probability as score. -/
def initBeams (w : World) (cs : Option (List (String × List Sketch))) (envs : List Env) :
    List (String × List BHyp) :=
  envs.map fun e =>
    (e.name, (envSketches w cs e).map fun sk => ⟨sk, e.clone, sk.prob, []⟩)

/-- Initial loop state (lines 454-532): the context-encoding buffer holds
one row per flattened hypothesis (`_expand_encoding` by
`flattened_hyp_env_idx_ptr` — a row's content is its question's
environment), the sketch-encoding buffer one row per flattened sketch,
and the initial decoder state one `init` row per flattened position. -/
def initBState (w : World) (cs : Option (List (String × List Sketch))) (envs : List Env) :
    BState :=
  let beams0 := initBeams w cs envs
  let hyps := joinHyps beams0
  { t := 0,
    beams := beams0,
    completed := envs.map fun e => (e.name, []),
    dec := hyps.enum.map fun ph => .init ph.1 ph.2.env ph.2.sketch,
    obs := hyps.map (·.env),
    hypScores := hyps.map (·.score),
    ctx := hyps.map (·.env),
    skEnc := hyps.map (·.sketch) }

/-- Finalization of one question's completed pool (lines 733-736): sort
by score descending, truncate to the beam width, convert to `Sample`s
whose probability field is the hypothesis score. -/
def finalizeHyps (beamSize : Nat) (hyps : List BHyp) : List Sample :=
  ((sortDesc (fun h : BHyp => h.score) hyps).take beamSize).map fun h =>
    ⟨Traj.fromEnv h.env, h.score⟩

/-- `PGAgent.new_beam_search` (lines 424-745) with `return_list=False`
and `use_cache=False`.  `strictConstraint` mirrors the accepted
`strict_constraint_on_sketches` argument. -/
def newBeamSearch (w : World) (envs : List Env) (beamSize : Nat)
    (cs : Option (List (String × List Sketch)))
    (strictConstraint force : Bool) (fuel : Nat) :
    Res (List (String × List Sample)) :=
  let st0 := initBState w cs envs
  if (joinHyps st0.beams).length = 0 then
    .ok (st0.completed.map fun nc => (nc.1, []))
  else
    match beamLoop w beamSize force fuel st0 with
    | .err e => .err e
    | .ok completed => .ok (completed.map fun nc => (nc.1, finalizeHyps beamSize nc.2))

/-- A world with inert oracles, used to instantiate witnesses. -/
def trivWorld : World :=
  { isVarSlot := fun _ => false, getSketches := fun _ => [], drawIdx := fun _ _ => 0,
    sampleAct := fun _ _ => 0, sampleLogProb := fun _ _ => 0,
    actionScore := fun _ _ _ => none }

/-- Concrete instantiation for the hypotheses of `C4_desync_raises`:
one active hypothesis whose sketch is empty while `t = 0`. -/
def stC4 : SState :=
  { t := 0, active := [defaultEnv], sketches := [⟨[], 0⟩], ctx := [defaultEnv],
    skEnc := [⟨[], 0⟩], dec := [defaultRow], probs := [0], contribs := [[]],
    completed := [] }

/-- Concrete instantiation for the hypotheses of `C5_fixed_token_forced`:
one active hypothesis at a fixed-token step. -/
def stC5 : SState :=
  { t := 0, active := [defaultEnv], sketches := [⟨["A"], 0⟩], ctx := [defaultEnv],
    skEnc := [⟨["A"], 0⟩], dec := [defaultRow], probs := [3], contribs := [[3]],
    completed := [] }

/-- Environment for the C3 counterexample: its single valid action `7`
(the lookup of fixed token `"B"`) completes the program with the error
flag set. -/
def envC3 : Env :=
  { name := "q3", lookup := fun tok => if tok = "B" then 7 else 0,
    validF := fun _ => [7], doneF := fun p => !p.isEmpty,
    errorF := fun p => !p.isEmpty, program := [] }

def skC3 : Sketch := ⟨["B"], 0⟩

def beamC3 : List BHyp := [⟨skC3, envC3, 0, []⟩]

/-- Error-free variant of `envC3`, for the amended-claim witness. -/
def envC3b : Env :=
  { name := "q3", lookup := fun tok => if tok = "B" then 7 else 0,
    validF := fun _ => [7], doneF := fun p => !p.isEmpty,
    errorF := fun _ => false, program := [] }

def beamC3b : List BHyp := [⟨skC3, envC3b, 0, []⟩]

/-- `c.prob = c.sketch.prob + sum c.contribs` for a completed rollout. -/
def entryOk (c : CompletedEntry) : Prop := c.prob = c.sketch.prob + c.contribs.sum

/-- `h.score = h.sketch.prob + sum h.contribs` for a beam hypothesis. -/
def bhypOk (h : BHyp) : Prop := h.score = h.sketch.prob + h.contribs.sum

/-- Ghost contribution list of a pool entry. -/
def Cand.contribs : Cand → List ℤ
  | .done h => h.contribs
  | .cont ch => ch.contribs

/-- Score bookkeeping for a pool entry. -/
def candOk (c : Cand) : Prop := c.score = c.sketch.prob + c.contribs.sum

/-- Environment for the C1 counterexample: one fixed-token step completes
the program without error. -/
def envC1 : Env :=
  { name := "q0", lookup := fun tok => if tok = "A" then 5 else 0,
    validF := fun _ => [5], doneF := fun p => !p.isEmpty, errorF := fun _ => false,
    program := [] }

/-- World for the C1 counterexample: one sketch `["A"]` with prior
log-probability 0. -/
def wC1 : World :=
  { isVarSlot := fun tk => tk == "V", getSketches := fun _ => [⟨["A"], 0⟩],
    drawIdx := fun _ _ => 0, sampleAct := fun _ _ => 5,
    sampleLogProb := fun _ _ => -1, actionScore := fun _ _ _ => some (-1) }

/-- A state with one extra (empty) completed-pool entry prepended. -/
def prependCompleted (nm : String) (st : BState) : BState :=
  { st with completed := (nm, []) :: st.completed }

/-- A state with one extra question that has an empty beam and an empty
completed pool — the shape produced by a question with zero candidate
sketches. -/
def withEmptyEnv (nm : String) (st : BState) : BState :=
  { st with beams := (nm, []) :: st.beams, completed := (nm, []) :: st.completed }

/-- Environment that completes with the error flag after one step. -/
def errEnv : Env :=
  { name := "e", lookup := fun _ => 0, validF := fun _ => [9],
    doneF := fun p => !p.isEmpty, errorF := fun p => !p.isEmpty, program := [] }

/-- A continuing candidate over `errEnv`, for the witness below. -/
def chC7 : ContHyp := ⟨⟨["A"], 0⟩, errEnv, 9, 0, 0, 0, []⟩

/-! ## List helper lemmas -/

theorem getD_range_map {α : Type} (f : Nat → α) (n i : Nat) (d : α) (h : i < n) :
    ((List.range n).map f).getD i d = f i := by
  simp [List.getD_eq_getElem?_getD, List.getElem?_map, List.getElem?_range h]

theorem getD_range_map_ge {α : Type} (f : Nat → α) (n i : Nat) (d : α) (h : n ≤ i) :
    ((List.range n).map f).getD i d = d := by
  have : ((List.range n).map f).length ≤ i := by simpa using h
  simp [List.getD_eq_getElem?_getD, List.getElem?_eq_none this]

theorem range_map_getD {α : Type} (l : List α) (d : α) :
    (List.range l.length).map (fun i => l.getD i d) = l := by
  apply List.ext_getElem?
  intro i
  by_cases h : i < l.length
  · simp [List.getElem?_map, List.getElem?_range h, List.getD_eq_getElem?_getD,
      List.getElem?_eq_getElem h]
  · simp [List.getElem?_eq_none, le_of_not_lt h]

theorem getD_map_lt {α β : Type} (f : α → β) (l : List α) (i : Nat) (d : β) (d' : α)
    (h : i < l.length) : (l.map f).getD i d = f (l.getD i d') := by
  simp [List.getD_eq_getElem?_getD, List.getElem?_map, List.getElem?_eq_getElem h]

theorem getD_append_add {α : Type} (l₁ l₂ : List α) (j : Nat) (d : α) :
    (l₁ ++ l₂).getD (l₁.length + j) d = l₂.getD j d := by
  simp [List.getD_eq_getElem?_getD, List.getElem?_append_right]

theorem getD_append_lt {α : Type} (l₁ l₂ : List α) (j : Nat) (d : α) (h : j < l₁.length) :
    (l₁ ++ l₂).getD j d = l₁.getD j d := by
  simp [List.getD_eq_getElem?_getD, List.getElem?_append_left h]

theorem mem_insertDesc {α : Type} (f : α → ℤ) (x a : α) (l : List α) :
    a ∈ insertDesc f x l ↔ a = x ∨ a ∈ l := by
  induction l with
  | nil => simp [insertDesc]
  | cons y ys ih =>
    by_cases h : f y ≤ f x <;> simp [insertDesc, h, ih] <;> tauto

theorem mem_sortDesc {α : Type} (f : α → ℤ) (a : α) (l : List α) :
    a ∈ sortDesc f l ↔ a ∈ l := by
  induction l with
  | nil => simp [sortDesc]
  | cons x xs ih => simp [sortDesc, mem_insertDesc, ih]

theorem skeq_symm {a b : Sketch} (h : skeq a b = true) : skeq b a = true := by
  simp only [skeq, beq_iff_eq] at *
  exact h.symm

theorem skeq_of_skeq_skeq {a b s : Sketch} (h1 : skeq a s = true) (h2 : skeq b s = true) :
    skeq a b = true := by
  simp only [skeq, beq_iff_eq] at *
  exact h1.trans h2.symm

/-! ## Claim theorems -/

/-- **C10**: two runs of `new_beam_search` that differ only in the value
of the `strict_constraint_on_sketches` argument return identical
results — the flag is accepted but never read in the function body. -/
theorem C10_strict_flag_unused (w : World) (envs : List Env) (beamSize : Nat)
    (cs : Option (List (String × List Sketch))) (b₁ b₂ force : Bool) (fuel : Nat) :
    newBeamSearch w envs beamSize cs b₁ force fuel =
    newBeamSearch w envs beamSize cs b₂ force fuel := rfl

/-- **C4**: in the Sampler, if the current time step is out of range with
respect to some active hypothesis's sketch length
(`state_t.t - 1 >= len(sketch)`), the rollout loop raises an error that
aborts the whole search instead of continuing with that hypothesis. -/
theorem C4_desync_raises (w : World) (st : SState) (fuel : Nat)
    (h : ∃ i ∈ List.range st.active.length,
          (st.sketches.getD i defaultSketch).tokens.length ≤ st.t) :
    ∃ e, sampleLoop w (fuel + 1) st = .err e := by
  obtain ⟨i, hi, hlen⟩ := h
  have hout : processHyp w st i = .fail .indexError := by
    simp only [processHyp]
    rw [if_pos hlen]
  have hmem : RunErr.indexError ∈
      (List.range st.active.length).filterMap fun j =>
        match processHyp w st j with | .fail e => some e | _ => none := by
    exact List.mem_filterMap.mpr ⟨i, hi, by rw [hout]⟩
  have hne : ((List.range st.active.length).filterMap fun j =>
      match processHyp w st j with | .fail e => some e | _ => none) ≠ [] :=
    List.ne_nil_of_mem hmem
  obtain ⟨e, he⟩ : ∃ e, stepError w st = some e := by
    unfold stepError
    cases hl : (List.range st.active.length).filterMap fun j =>
        match processHyp w st j with | .fail e => some e | _ => none with
    | nil => exact absurd hl hne
    | cons a t => exact ⟨a, rfl⟩
  refine ⟨e, ?_⟩
  simp [sampleLoop, sampleStep, he]

/-- **C5**: in the Sampler, at a step whose sketch token is a fixed
(non-variable) token, the action actually executed is the vocabulary
lookup of that token — independent of the action sampled from the
policy — and the step contributes zero to the accumulated log-score: the
`var_time_step_mask` value is 0 and the updated `sample_probs` entry
equals the previous one. -/
theorem C5_fixed_token_forced (w : World) (st : SState) (i : Nat)
    (hi : i < st.active.length)
    (hfix : w.isVarSlot (tokenAt st i) = false)
    (halign : st.skEnc.getD i defaultSketch = st.sketches.getD i defaultSketch)
    (hrange : st.t < (st.sketches.getD i defaultSketch).tokens.length) :
    chosenAction w st i = (st.active.getD i defaultEnv).lookup (tokenAt st i) ∧
    varMask w (st.skEnc.getD i defaultSketch) st.t = 0 ∧
    (stepProbs w st).getD i 0 = st.probs.getD i 0 := by
  have htok : (st.sketches.getD i defaultSketch).tokens[st.t]? =
      some (tokenAt st i) := by
    simp only [tokenAt]
    rw [List.getElem?_eq_getElem hrange, List.getD_eq_getElem _ _ hrange]
  have hmask : varMask w (st.skEnc.getD i defaultSketch) st.t = 0 := by
    rw [halign]
    unfold varMask
    rw [htok]
    simp [hfix]
  refine ⟨by simp [chosenAction, hfix], hmask, ?_⟩
  rw [stepProbs, getD_range_map _ _ _ _ hi, stepContrib, hmask, mul_zero, add_zero]

theorem C4_desync_raises_witness :
    (∃ i ∈ List.range stC4.active.length,
      (stC4.sketches.getD i defaultSketch).tokens.length ≤ stC4.t) ∧
    ∃ e, sampleLoop trivWorld (0 + 1) stC4 = .err e :=
  ⟨by decide, C4_desync_raises trivWorld stC4 0 (by decide)⟩

/-- **C6**: a hypothesis whose sketch token at the current step is fixed
but whose vocabulary action is not currently valid yields no candidate
continuation in the Beam Search Engine (so nothing derived from it can
reach the new beam or the completed pool), and in the Sampler its outcome
is a silent drop — not an exception: it is not among the surviving
positions and contributes no completed entry. -/
theorem C6_fixed_invalid_dropped
    (w : World) (t : Nat) (dec : List DecRow) (obs : List Env) (skEnc : List Sketch)
    (hypScores : List ℤ) (pos : Nat) (hyp : BHyp) (tok : String)
    (htok : hyp.sketch.tokens[t]? = some tok)
    (hfix : w.isVarSlot tok = false)
    (hinv : hyp.env.lookup tok ∉ hyp.env.validActions)
    (st : SState) (i : Nat)
    (hsfix : w.isVarSlot (tokenAt st i) = false)
    (hsrange : st.t < (st.sketches.getD i defaultSketch).tokens.length)
    (hsinv : (st.active.getD i defaultEnv).lookup (tokenAt st i) ∉
             (st.active.getD i defaultEnv).validActions) :
    genHypCands w t dec obs skEnc hypScores pos hyp = .ok [] ∧
    processHyp w st i = .dropInvalid ∧
    i ∉ survivorIdx w st ∧
    i ∉ (stepCompleted w st).map (·.1) := by
  have hproc : processHyp w st i = .dropInvalid := by
    have hact : chosenAction w st i =
        (st.active.getD i defaultEnv).lookup (tokenAt st i) := by
      simp [chosenAction, hsfix]
    simp only [processHyp]
    rw [if_neg (Nat.not_le.mpr hsrange), hact, if_neg hsinv, if_neg]
    simp [hsfix]
  refine ⟨?_, hproc, ?_, ?_⟩
  · simp [genHypCands, htok, hfix, hinv]
  · intro hmem
    have := (List.mem_filter.mp hmem).2
    rw [hproc] at this
    simp at this
  · intro hmem
    obtain ⟨p, hp, hp1⟩ := List.mem_map.mp hmem
    obtain ⟨j, _, hjeq⟩ := List.mem_filterMap.mp hp
    cases hpj : processHyp w st j <;> rw [hpj] at hjeq <;> simp at hjeq
    have hji : j = i := by rw [← hjeq] at hp1; exact hp1
    rw [hji, hproc] at hpj
    simp at hpj

theorem applyCand_newBeam_len (c : Cand) (acc : EnvAcc) :
    (applyCand c acc).newBeam.length ≤ acc.newBeam.length + 1 := by
  unfold applyCand
  cases candOutcome c <;> simp

/-- Counting bound for the pruning loop: the new beam grows by at most
the remaining primary budget plus the size of the not-yet-covered sketch
set â every coverage admission strictly shrinks that set. -/
theorem pruneLoop_newBeam_le_cov (beamSize : Nat) (force : Bool) (cands : List Cand)
    (cnt : Nat) (notCov : List Sketch) (acc : EnvAcc) :
    (pruneLoop beamSize force cands cnt notCov acc).newBeam.length ≤
      acc.newBeam.length + (beamSize - cnt) + notCov.length := by
  induction cands generalizing cnt notCov acc with
  | nil => simp only [pruneLoop]; omega
  | cons c rest ih =>
    have ha := applyCand_newBeam_len c acc
    by_cases h1 : cnt < beamSize
    · simp only [pruneLoop, if_pos h1]
      refine le_trans (ih _ _ _) ?_
      have hf : (if force then notCov.filter (fun s => !skeq s c.sketch)
          else notCov).length ≤ notCov.length := by
        cases force
        · simp
        · simpa using List.length_filter_le _ _
      omega
    · simp only [pruneLoop, if_neg h1]
      by_cases h2 : (force && !notCov.isEmpty) = true
      · simp only [if_pos h2]
        by_cases h3 : ((notCov.filter fun s => skeq s c.sketch).isEmpty) = true
        · simp only [if_pos h3]
          refine le_trans (ih _ _ _) ?_
          omega
        · simp only [if_neg h3]
          refine le_trans (ih _ _ _) ?_
          have hlt : (notCov.filter fun s => !skeq s c.sketch).length <
              notCov.length := by
            have hne : (notCov.filter fun s => skeq s c.sketch) ≠ [] := by
              simpa [List.isEmpty_iff] using h3
            obtain ⟨x, hx⟩ := List.exists_mem_of_ne_nil _ hne
            obtain ⟨hxm, hxs⟩ := List.mem_filter.mp hx
            exact List.length_filter_lt_length_iff_exists.mpr ⟨x, hxm, by simp [hxs]⟩
          omega
      · simp only [if_neg h2]
        refine le_trans (ih _ _ _) ?_
        omega

/-- Without forced coverage nothing is admitted past the primary budget,
so the new beam is bounded by the remaining budget alone. -/
theorem pruneLoop_newBeam_le_noforce (beamSize : Nat) (cands : List Cand)
    (cnt : Nat) (notCov : List Sketch) (acc : EnvAcc) :
    (pruneLoop beamSize false cands cnt notCov acc).newBeam.length ≤
      acc.newBeam.length + (beamSize - cnt) := by
  induction cands generalizing cnt notCov acc with
  | nil => simp only [pruneLoop]; omega
  | cons c rest ih =>
    have ha := applyCand_newBeam_len c acc
    by_cases h1 : cnt < beamSize
    · simp only [pruneLoop, if_pos h1]
      refine le_trans (ih _ _ _) ?_
      omega
    · simp only [pruneLoop, if_neg h1, Bool.false_and]
      rw [if_neg (by simp)]
      refine le_trans (ih _ _ _) ?_
      omega

/-- **C2**: for every question at every step, the new active beam emitted
by the merge-and-prune stage holds at most `beam_width` hypotheses when
`force_sketch_coverage` is disabled, and at most `beam_width` plus the
number of distinct (initially not-yet-covered) sketches of the prior beam
when it is enabled. -/
theorem C2_beam_width_bound (w : World) (t beamSize : Nat) (force : Bool)
    (dec : List DecRow) (obs : List Env) (skEnc : List Sketch) (hypScores : List ℤ)
    (start : Nat) (beam : List BHyp) (prevCompleted : List BHyp) :
    match envBeamStep w t beamSize force dec obs skEnc hypScores start beam
        prevCompleted with
    | .ok acc => acc.newBeam.length ≤
        beamSize + (if force then (dedupSketches (beam.map (·.sketch))).length else 0)
    | .err _ => True := by
  unfold envBeamStep
  cases hg : genBeamCands w t dec obs skEnc hypScores start beam with
  | err e => exact trivial
  | ok conts =>
    cases force
    · have := pruneLoop_newBeam_le_noforce beamSize
        (sortDesc Cand.score (prevCompleted.map Cand.done ++ conts)) 0
        (dedupSketches (beam.map (·.sketch))) emptyAcc
      simp only [emptyAcc] at this
      simpa using this
    · have := pruneLoop_newBeam_le_cov beamSize true
        (sortDesc Cand.score (prevCompleted.map Cand.done ++ conts)) 0
        (dedupSketches (beam.map (·.sketch))) emptyAcc
      simp only [emptyAcc] at this
      simpa using this

/-- The surviving environments are exactly the survivor positions mapped
through their step outcome. -/
theorem survivorEnvs_eq_map (w : World) (st : SState) :
    survivorEnvs w st = (survivorIdx w st).map fun i =>
      match processHyp w st i with | .survive e => e | _ => defaultEnv := by
  unfold survivorEnvs survivorIdx
  generalize List.range st.active.length = L
  induction L with
  | nil => rfl
  | cons j l ih =>
    simp only [List.filterMap_cons, List.filter_cons]
    cases hp : processHyp w st j <;> simp [hp, ih]

/-- When no hypothesis errors, completes or is dropped, every position
survives. -/
theorem survivorIdx_eq_range (w : World) (st : SState)
    (hne : stepError w st = none) (hnc : hasCompletedSample w st = false) :
    survivorIdx w st = List.range st.active.length := by
  have hfails : ∀ i ∈ List.range st.active.length,
      (match processHyp w st i with
        | HypOut.fail e => some e | _ => (none : Option RunErr)) = none := by
    have h0 := hne
    unfold stepError at h0
    exact List.filterMap_eq_nil_iff.mp (List.head?_eq_none_iff.mp h0)
  have hflags : ∀ i ∈ List.range st.active.length,
      ¬ ((match processHyp w st i with
        | HypOut.completedOk _ => true | HypOut.dropInvalid => true
        | _ => false) = true) := by
    have h0 := hnc
    unfold hasCompletedSample at h0
    exact fun i hi => by simpa using List.any_eq_false.mp h0 i hi
  refine List.filter_eq_self.mpr fun i hi => ?_
  have hf := hfails i hi
  have hg := hflags i hi
  cases hp : processHyp w st i
  · rw [hp] at hf; simp at hf
  · rw [hp] at hg; simp at hg
  · rfl
  · rw [hp] at hg; simp at hg

/-- A list of known length is recovered by gathering over the identity
index range. -/
theorem getD_self_of_length {α : Type} (l : List α) (d : α) (n : Nat)
    (h : l.length = n) :
    (List.range n).map (fun i => l.getD i d) = l := by
  subst h
  exact range_map_getD l d

theorem applyCand_shape (c : Cand) (acc : EnvAcc)
    (hobs : acc.obsAdds = acc.newBeam.map (·.env))
    (hsc : acc.scoreAdds = acc.newBeam.map (·.score))
    (hpl : acc.parents.length = acc.newBeam.length) :
    (applyCand c acc).obsAdds = (applyCand c acc).newBeam.map (·.env) ∧
    (applyCand c acc).scoreAdds = (applyCand c acc).newBeam.map (·.score) ∧
    (applyCand c acc).parents.length = (applyCand c acc).newBeam.length := by
  unfold applyCand
  cases candOutcome c <;> simp [hobs, hsc, hpl]

/-- The pruning loop keeps the global re-indexing lists aligned with the
new beam: observations and scores are its hypotheses' fields and the
parent list has one entry per new-beam member. -/
theorem pruneLoop_shape (beamSize : Nat) (force : Bool) (cands : List Cand)
    (cnt : Nat) (notCov : List Sketch) (acc : EnvAcc)
    (hobs : acc.obsAdds = acc.newBeam.map (·.env))
    (hsc : acc.scoreAdds = acc.newBeam.map (·.score))
    (hpl : acc.parents.length = acc.newBeam.length) :
    (pruneLoop beamSize force cands cnt notCov acc).obsAdds =
      (pruneLoop beamSize force cands cnt notCov acc).newBeam.map (·.env) ∧
    (pruneLoop beamSize force cands cnt notCov acc).scoreAdds =
      (pruneLoop beamSize force cands cnt notCov acc).newBeam.map (·.score) ∧
    (pruneLoop beamSize force cands cnt notCov acc).parents.length =
      (pruneLoop beamSize force cands cnt notCov acc).newBeam.length := by
  induction cands generalizing cnt notCov acc with
  | nil => exact ⟨hobs, hsc, hpl⟩
  | cons c rest ih =>
    obtain ⟨h1, h2, h3⟩ := applyCand_shape c acc hobs hsc hpl
    by_cases hc1 : cnt < beamSize
    · simp only [pruneLoop, if_pos hc1]
      exact ih _ _ _ h1 h2 h3
    · simp only [pruneLoop, if_neg hc1]
      by_cases hc2 : (force && !notCov.isEmpty) = true
      · simp only [if_pos hc2]
        by_cases hc3 : ((notCov.filter fun s => skeq s c.sketch).isEmpty) = true
        · simp only [if_pos hc3]
          exact ih _ _ _ hobs hsc hpl
        · simp only [if_neg hc3]
          exact ih _ _ _ h1 h2 h3
      · simp only [if_neg hc2]
        exact ih _ _ _ hobs hsc hpl

/-- `beamsFold` keeps the rebuilt observation/score buffers aligned with
the flattened new beams and emits one parent index per new hypothesis. -/
theorem beamsFold_shape (w : World) (t beamSize : Nat) (force : Bool)
    (dec : List DecRow) (obs : List Env) (skEnc : List Sketch) (hypScores : List ℤ) :
    ∀ (start : Nat) (beams completed : List (String × List BHyp)),
    match beamsFold w t beamSize force dec obs skEnc hypScores start beams completed with
    | .ok out =>
        out.obsAdds = (joinHyps out.newBeams).map (·.env) ∧
        out.scoreAdds = (joinHyps out.newBeams).map (·.score) ∧
        out.parents.length = (joinHyps out.newBeams).length
    | .err _ => True := by
  intro start beams
  induction beams generalizing start with
  | nil => intro completed; simp [beamsFold, joinHyps]
  | cons nb rest ih =>
    intro completed
    obtain ⟨name, beam⟩ := nb
    simp only [beamsFold]
    cases he : envBeamStep w t beamSize force dec obs skEnc hypScores start beam
        (getAssoc name completed) with
    | err e => exact trivial
    | ok acc =>
      have haccsh : acc.obsAdds = acc.newBeam.map (·.env) ∧
          acc.scoreAdds = acc.newBeam.map (·.score) ∧
          acc.parents.length = acc.newBeam.length := by
        revert he
        unfold envBeamStep
        cases genBeamCands w t dec obs skEnc hypScores start beam with
        | err e => intro h; cases h
        | ok conts =>
          intro h
          cases h
          exact pruneLoop_shape _ _ _ _ _ emptyAcc rfl rfl rfl
      have hrec := ih (start + beam.length)
          (setAssoc name acc.completedNew completed)
      dsimp only
      cases hf : beamsFold w t beamSize force dec obs skEnc hypScores
          (start + beam.length) rest (setAssoc name acc.completedNew completed) with
      | err e => exact trivial
      | ok out =>
        rw [hf] at hrec
        obtain ⟨r1, r2, r3⟩ := hrec
        obtain ⟨a1, a2, a3⟩ := haccsh
        by_cases hemp : acc.newBeam.isEmpty = true
        · have hnil : acc.newBeam = [] := by simpa [List.isEmpty_iff] using hemp
          rw [hnil] at a1 a2 a3
          simp only [List.map_nil, List.length_nil] at a1 a2 a3
          refine ⟨?_, ?_, ?_⟩
          · simp [hemp, joinHyps, a1, r1]
          · simp [hemp, joinHyps, a2, r2]
          · simp [hemp, joinHyps, List.length_append, a3, r3]
        · refine ⟨?_, ?_, ?_⟩
          · simp [hemp, joinHyps, a1, r1]
          · simp [hemp, joinHyps, a2, r2]
          · simp [hemp, joinHyps, List.length_append, a3, r3]

/-- **C9**: whenever the active hypothesis set shrinks or reorders, every
parallel buffer is gathered by one common list of surviving indices and
stays index-aligned 1:1 with the new active list.  For the Sampler: one
position list gathers the active environments, the sketch list, the
context/sketch encodings, the stepped decoder state, the running scores
and the ghost contribution lists — also on the path that skips explicit
slicing, where the gather list is the identity range.  For the Beam
Search Engine: the decoder state, context encoding and sketch encoding of
the next step are the gather of the stepped buffers by
`new_hyp_parent_abs_pos_list`, whose length is the flattened new beam
size, while the observation and score buffers are rebuilt from exactly
the admitted hypotheses in order. -/
theorem C9_reindex_alignment (w : World) (st : SState)
    (h1 : st.sketches.length = st.active.length)
    (h2 : st.ctx.length = st.active.length)
    (h3 : st.skEnc.length = st.active.length) :
    (match sampleStep w st with
     | .ok st' =>
        ∃ pos : List Nat,
          st'.active = pos.map (fun i => match processHyp w st i with
            | .survive e => e | _ => defaultEnv) ∧
          st'.sketches = pos.map (fun i => st.sketches.getD i defaultSketch) ∧
          st'.ctx = pos.map (fun i => st.ctx.getD i defaultEnv) ∧
          st'.skEnc = pos.map (fun i => st.skEnc.getD i defaultSketch) ∧
          st'.dec = pos.map (fun i => (decStepped st).getD i defaultRow) ∧
          st'.probs = pos.map (fun i => (stepProbs w st).getD i 0) ∧
          st'.contribs = pos.map (fun i => (stepContribsList w st).getD i [])
     | .err _ => True) ∧
    (∀ (beamSize : Nat) (force : Bool) (bst : BState),
      match beamStep w beamSize force bst with
      | .ok bst' =>
          ∃ parents : List Nat,
            bst'.dec = parents.map (fun p => (bDecStepped bst).getD p defaultRow) ∧
            bst'.ctx = parents.map (fun p => bst.ctx.getD p defaultEnv) ∧
            bst'.skEnc = parents.map (fun p => bst.skEnc.getD p defaultSketch) ∧
            parents.length = (joinHyps bst'.beams).length ∧
            bst'.obs = (joinHyps bst'.beams).map (·.env) ∧
            bst'.hypScores = (joinHyps bst'.beams).map (·.score)
      | .err _ => True) := by
  constructor
  · unfold sampleStep
    cases hse : stepError w st with
    | some e => exact trivial
    | none =>
      by_cases hflag : hasCompletedSample w st = true
      · rw [if_pos hflag]
        exact ⟨survivorIdx w st, survivorEnvs_eq_map w st, rfl, rfl, rfl, rfl, rfl, rfl⟩
      · rw [if_neg hflag]
        have hrange := survivorIdx_eq_range w st hse (Bool.not_eq_true _ ▸ eq_false_of_ne_true hflag)
        refine ⟨survivorIdx w st, survivorEnvs_eq_map w st, ?_, ?_, ?_, ?_, ?_, ?_⟩
        · rw [hrange, getD_self_of_length st.sketches defaultSketch _ h1]
        · rw [hrange, getD_self_of_length st.ctx defaultEnv _ h2]
        · rw [hrange, getD_self_of_length st.skEnc defaultSketch _ h3]
        · rw [hrange, getD_self_of_length (decStepped st) defaultRow _ (by simp [decStepped])]
        · rw [hrange, getD_self_of_length (stepProbs w st) 0 _ (by simp [stepProbs])]
        · rw [hrange,
            getD_self_of_length (stepContribsList w st) [] _ (by simp [stepContribsList])]
  · intro beamSize force bst
    unfold beamStep
    have hsh := beamsFold_shape w bst.t beamSize force bst.dec bst.obs bst.skEnc
      bst.hypScores 0 bst.beams bst.completed
    cases hf : beamsFold w bst.t beamSize force bst.dec bst.obs bst.skEnc
        bst.hypScores 0 bst.beams bst.completed with
    | err e => exact trivial
    | ok out =>
      rw [hf] at hsh
      obtain ⟨s1, s2, s3⟩ := hsh
      exact ⟨out.parents, rfl, rfl, rfl, s3, s1, s2⟩

theorem C9_reindex_alignment_witness :
    (stC5.sketches.length = stC5.active.length ∧
     stC5.ctx.length = stC5.active.length ∧
     stC5.skEnc.length = stC5.active.length) ∧
    ((match sampleStep trivWorld stC5 with
      | .ok st' =>
         ∃ pos : List Nat,
           st'.active = pos.map (fun i => match processHyp trivWorld stC5 i with
             | .survive e => e | _ => defaultEnv) ∧
           st'.sketches = pos.map (fun i => stC5.sketches.getD i defaultSketch) ∧
           st'.ctx = pos.map (fun i => stC5.ctx.getD i defaultEnv) ∧
           st'.skEnc = pos.map (fun i => stC5.skEnc.getD i defaultSketch) ∧
           st'.dec = pos.map (fun i => (decStepped stC5).getD i defaultRow) ∧
           st'.probs = pos.map (fun i => (stepProbs trivWorld stC5).getD i 0) ∧
           st'.contribs = pos.map (fun i => (stepContribsList trivWorld stC5).getD i [])
      | .err _ => True) ∧
     (∀ (beamSize : Nat) (force : Bool) (bst : BState),
       match beamStep trivWorld beamSize force bst with
       | .ok bst' =>
           ∃ parents : List Nat,
             bst'.dec = parents.map (fun p => (bDecStepped bst).getD p defaultRow) ∧
             bst'.ctx = parents.map (fun p => bst.ctx.getD p defaultEnv) ∧
             bst'.skEnc = parents.map (fun p => bst.skEnc.getD p defaultSketch) ∧
             parents.length = (joinHyps bst'.beams).length ∧
             bst'.obs = (joinHyps bst'.beams).map (·.env) ∧
             bst'.hypScores = (joinHyps bst'.beams).map (·.score)
       | .err _ => True)) :=
  ⟨⟨by decide, by decide, by decide⟩,
   C9_reindex_alignment trivWorld stC5 (by decide) (by decide) (by decide)⟩

theorem skeq_refl (a : Sketch) : skeq a a = true := by
  simp [skeq]

theorem skeq_trans {a b c : Sketch} (h1 : skeq a b = true) (h2 : skeq b c = true) :
    skeq a c = true := by
  simp only [skeq, beq_iff_eq] at *
  exact h1.trans h2

/-- The hypothesis produced by `_add_hypothesis_to_new_beam` keeps the
pool entry's sketch. -/
theorem candOutcome_sketch (c : Cand) :
    (∀ h, candOutcome c = .toCompleted h → h.sketch = c.sketch) ∧
    (∀ h p, candOutcome c = .toBeam h p → h.sketch = c.sketch) := by
  cases c with
  | done h0 =>
    refine ⟨fun h he => ?_, fun h p he => ?_⟩ <;> simp [candOutcome] at he
    · rw [← he]; rfl
  | cont ch =>
    unfold candOutcome
    by_cases hd : (ch.prevEnv.clone.stepRel ch.relActionId).done = true
    · by_cases herr : (ch.prevEnv.clone.stepRel ch.relActionId).error = true
      · refine ⟨fun h he => ?_, fun h p he => ?_⟩ <;> simp [hd, herr] at he
      · refine ⟨fun h he => ?_, fun h p he => ?_⟩ <;> simp [hd, herr] at he
        rw [← he]; rfl
    · refine ⟨fun h he => ?_, fun h p he => ?_⟩ <;> simp [hd] at he
      rw [← he.1]; rfl

/-- The pruning loop only appends to the new beam and the completed pool. -/
theorem pruneLoop_mem_mono (beamSize : Nat) (force : Bool) (cands : List Cand)
    (cnt : Nat) (notCov : List Sketch) (acc : EnvAcc) :
    (∀ h ∈ acc.newBeam, h ∈ (pruneLoop beamSize force cands cnt notCov acc).newBeam) ∧
    (∀ h ∈ acc.completedNew,
      h ∈ (pruneLoop beamSize force cands cnt notCov acc).completedNew) := by
  induction cands generalizing cnt notCov acc with
  | nil => simp [pruneLoop]
  | cons c rest ih =>
    have hap : (∀ h ∈ acc.newBeam, h ∈ (applyCand c acc).newBeam) ∧
        (∀ h ∈ acc.completedNew, h ∈ (applyCand c acc).completedNew) := by
      unfold applyCand
      cases candOutcome c <;>
        exact ⟨fun h hm => by simp [hm], fun h hm => by simp [hm]⟩
    by_cases hc1 : cnt < beamSize
    · simp only [pruneLoop, if_pos hc1]
      exact ⟨fun h hm => (ih _ _ _).1 h (hap.1 h hm),
             fun h hm => (ih _ _ _).2 h (hap.2 h hm)⟩
    · simp only [pruneLoop, if_neg hc1]
      by_cases hc2 : (force && !notCov.isEmpty) = true
      · simp only [if_pos hc2]
        by_cases hc3 : ((notCov.filter fun s => skeq s c.sketch).isEmpty) = true
        · simp only [if_pos hc3]
          exact ih _ _ _
        · simp only [if_neg hc3]
          exact ⟨fun h hm => (ih _ _ _).1 h (hap.1 h hm),
                 fun h hm => (ih _ _ _).2 h (hap.2 h hm)⟩
      · simp only [if_neg hc2]
        exact ih _ _ _

/-- Coverage lemma for the pruning loop with `force_sketch_coverage` on:
while sketch `s` is still uncovered, the first pool entry with a
token-equal sketch is admitted — so `s` ends up represented in the new
beam or the completed pool, unless an admitted entry of that sketch
completed with the error flag. -/
theorem pruneLoop_coverage (beamSize : Nat) (cands : List Cand) (s : Sketch) :
    ∀ (cnt : Nat) (notCov : List Sketch) (acc : EnvAcc),
    (∃ x ∈ notCov, skeq x s = true) →
    (∃ c ∈ cands, skeq c.sketch s = true) →
    (∃ h ∈ (pruneLoop beamSize true cands cnt notCov acc).newBeam,
        skeq h.sketch s = true) ∨
    (∃ h ∈ (pruneLoop beamSize true cands cnt notCov acc).completedNew,
        skeq h.sketch s = true) ∨
    (∃ c ∈ cands, skeq c.sketch s = true ∧ candOutcome c = .droppedError) := by
  induction cands with
  | nil =>
    intro _ _ _ _ hc
    simp at hc
  | cons c rest ih =>
    intro cnt notCov acc hx hc
    obtain ⟨x, hxm, hxs⟩ := hx
    have hadmit : ∀ acc',
        (∃ h ∈ (applyCand c acc').newBeam, skeq h.sketch s = true) ∨
        (∃ h ∈ (applyCand c acc').completedNew, skeq h.sketch s = true) ∨
        candOutcome c = .droppedError ∨ skeq c.sketch s = false := by
      intro acc'
      by_cases hcs : skeq c.sketch s = true
      · cases ho : candOutcome c with
        | toCompleted h =>
          refine Or.inr (Or.inl ⟨h, ?_, ?_⟩)
          · simp [applyCand, ho]
          · rw [(candOutcome_sketch c).1 h ho]; exact hcs
        | toBeam h p =>
          refine Or.inl ⟨h, ?_, ?_⟩
          · simp [applyCand, ho]
          · rw [(candOutcome_sketch c).2 h p ho]; exact hcs
        | droppedError => exact Or.inr (Or.inr (Or.inl rfl))
      · exact Or.inr (Or.inr (Or.inr (by simpa using hcs)))
    by_cases hcs : skeq c.sketch s = true
    · -- `c` itself is admitted in either phase
      have hgoal : ∀ notCov' acc',
          (∃ h ∈ acc'.newBeam, skeq h.sketch s = true) ∨
          (∃ h ∈ acc'.completedNew, skeq h.sketch s = true) ∨
          candOutcome c = .droppedError →
          (∃ h ∈ (pruneLoop beamSize true rest (cnt+1) notCov' acc').newBeam,
              skeq h.sketch s = true) ∨
          (∃ h ∈ (pruneLoop beamSize true rest (cnt+1) notCov' acc').completedNew,
              skeq h.sketch s = true) ∨
          (∃ c' ∈ c :: rest, skeq c'.sketch s = true ∧
              candOutcome c' = .droppedError) := by
        intro notCov' acc' hcase
        rcases hcase with ⟨h, hm, hs⟩ | ⟨h, hm, hs⟩ | hdrop
        · exact Or.inl ⟨h, (pruneLoop_mem_mono beamSize true rest (cnt+1)
            notCov' acc').1 h hm, hs⟩
        · exact Or.inr (Or.inl ⟨h, (pruneLoop_mem_mono beamSize true rest (cnt+1)
            notCov' acc').2 h hm, hs⟩)
        · exact Or.inr (Or.inr ⟨c, List.mem_cons_self c rest, hcs, hdrop⟩)
      by_cases hc1 : cnt < beamSize
      · simp only [pruneLoop, if_pos hc1]
        rcases hadmit acc with hb | hcm | hdrop | hfalse
        · exact hgoal _ _ (Or.inl hb)
        · exact hgoal _ _ (Or.inr (Or.inl hcm))
        · exact hgoal _ _ (Or.inr (Or.inr hdrop))
        · rw [hcs] at hfalse; cases hfalse
      · have hnotemp : notCov.isEmpty = false :=
          List.isEmpty_eq_false_iff_exists_mem.mpr ⟨x, hxm⟩
        have hcond : (true && !notCov.isEmpty) = true := by simp [hnotemp]
        have hcov : ((notCov.filter fun y => skeq y c.sketch).isEmpty) = false := by
          refine List.isEmpty_eq_false_iff_exists_mem.mpr ⟨x, ?_⟩
          exact List.mem_filter.mpr ⟨hxm, skeq_of_skeq_skeq hxs hcs⟩
        simp only [pruneLoop, if_neg hc1, hcond, if_pos rfl, hcov]
        simp only [Bool.false_eq_true, if_false]
        rcases hadmit acc with hb | hcm | hdrop | hfalse
        · exact hgoal _ _ (Or.inl hb)
        · exact hgoal _ _ (Or.inr (Or.inl hcm))
        · exact hgoal _ _ (Or.inr (Or.inr hdrop))
        · rw [hcs] at hfalse; cases hfalse
    · -- recurse past `c`
      have hcrest : ∃ c' ∈ rest, skeq c'.sketch s = true := by
        obtain ⟨c', hc'm, hc's⟩ := hc
        rcases List.mem_cons.mp hc'm with rfl | hmem
        · exact absurd hc's (by simpa using hcs)
        · exact ⟨c', hmem, hc's⟩
      have hxkeep : ∀ (L : List Sketch), x ∈ L →
          x ∈ L.filter fun y => !skeq y c.sketch := by
        intro L hL
        refine List.mem_filter.mpr ⟨hL, ?_⟩
        by_cases hxc : skeq x c.sketch = true
        · exact absurd (skeq_trans (skeq_symm hxc) hxs) (by simpa using hcs)
        · simp [hxc]
      have hweaken : ∀ (r : List Cand → Prop),
          ((∃ c' ∈ rest, skeq c'.sketch s = true ∧ candOutcome c' = .droppedError) →
           (∃ c' ∈ c :: rest, skeq c'.sketch s = true ∧
             candOutcome c' = .droppedError)) := by
        intro _ ⟨c', hm, hp⟩
        exact ⟨c', List.mem_cons_of_mem c hm, hp⟩
      by_cases hc1 : cnt < beamSize
      · simp only [pruneLoop, if_pos hc1]
        rcases ih (cnt+1) (notCov.filter fun y => !skeq y c.sketch)
            (applyCand c acc) ⟨x, hxkeep notCov hxm, hxs⟩ hcrest with h | h | h
        · exact Or.inl h
        · exact Or.inr (Or.inl h)
        · exact Or.inr (Or.inr (hweaken (fun _ => True) h))
      · have hnotemp : notCov.isEmpty = false :=
          List.isEmpty_eq_false_iff_exists_mem.mpr ⟨x, hxm⟩
        have hcond : (true && !notCov.isEmpty) = true := by simp [hnotemp]
        simp only [pruneLoop, if_neg hc1, hcond, if_pos rfl]
        by_cases hcov : ((notCov.filter fun y => skeq y c.sketch).isEmpty) = true
        · simp only [if_pos hcov]
          rcases ih (cnt+1) notCov acc ⟨x, hxm, hxs⟩ hcrest with h | h | h
          · exact Or.inl h
          · exact Or.inr (Or.inl h)
          · exact Or.inr (Or.inr (hweaken (fun _ => True) h))
        · simp only [if_neg hcov]
          rcases ih (cnt+1) (notCov.filter fun y => !skeq y c.sketch)
              (applyCand c acc) ⟨x, hxkeep notCov hxm, hxs⟩ hcrest with h | h | h
          · exact Or.inl h
          · exact Or.inr (Or.inl h)
          · exact Or.inr (Or.inr (hweaken (fun _ => True) h))

/-- Membership in dedup, up to token equality. -/
theorem dedupSketches_covers (l : List Sketch) (a : Sketch) (ha : a ∈ l) :
    ∃ x ∈ dedupSketches l, skeq x a = true := by
  induction l with
  | nil => simp at ha
  | cons s rest ih =>
    rcases List.mem_cons.mp ha with rfl | hmem
    · exact ⟨a, by simp [dedupSketches], skeq_refl a⟩
    · by_cases hsk : skeq a s = true
      · exact ⟨s, by simp [dedupSketches], skeq_symm hsk⟩
      · obtain ⟨x, hxm, hxa⟩ := ih hmem
        refine ⟨x, ?_, hxa⟩
        simp only [dedupSketches, List.mem_cons]
        right
        refine List.mem_filter.mpr ⟨hxm, ?_⟩
        by_cases hxs : skeq x s = true
        · exact absurd (skeq_trans (skeq_symm hxa) hxs) (by simpa using hsk)
        · simp [hxs]

/-- **C3 (amended)**: with `force_sketch_coverage=True`, every sketch
present in a question's beam at step `t` that has at least one valid
candidate continuation is represented by at least one hypothesis in the
new beam, or has a completed hypothesis in the completed pool, or every
such representation was lost only because an admitted continuation of
that sketch completed with the interpreter error flag and was silently
dropped (the clause the original claim misses). -/
theorem C3_amended_coverage (w : World) (t beamSize : Nat)
    (dec : List DecRow) (obs : List Env) (skEnc : List Sketch) (hypScores : List ℤ)
    (start : Nat) (beam : List BHyp) (prevCompleted : List BHyp) (s : Sketch)
    (hbeam : ∃ h ∈ beam, skeq h.sketch s = true) :
    match genBeamCands w t dec obs skEnc hypScores start beam,
          envBeamStep w t beamSize true dec obs skEnc hypScores start beam
            prevCompleted with
    | .ok conts, .ok acc =>
        (∃ c ∈ conts, skeq c.sketch s = true) →
        ((∃ h ∈ acc.newBeam, skeq h.sketch s = true) ∨
         (∃ h ∈ acc.completedNew, skeq h.sketch s = true) ∨
         (∃ c ∈ prevCompleted.map Cand.done ++ conts,
            skeq c.sketch s = true ∧ candOutcome c = .droppedError))
    | _, _ => True := by
  cases hg : genBeamCands w t dec obs skEnc hypScores start beam with
  | err e => exact trivial
  | ok conts =>
    unfold envBeamStep
    rw [hg]
    dsimp only
    intro hc
    obtain ⟨h0, h0m, h0s⟩ := hbeam
    obtain ⟨x, hxm, hxh⟩ := dedupSketches_covers (beam.map (·.sketch)) h0.sketch
      (List.mem_map_of_mem _ h0m)
    have hx : ∃ y ∈ dedupSketches (beam.map (·.sketch)), skeq y s = true :=
      ⟨x, hxm, skeq_trans hxh h0s⟩
    obtain ⟨c, hcm, hcs⟩ := hc
    have hcsort : ∃ c' ∈ sortDesc Cand.score (prevCompleted.map Cand.done ++ conts),
        skeq c'.sketch s = true :=
      ⟨c, (mem_sortDesc _ _ _).mpr (List.mem_append_right _ hcm), hcs⟩
    rcases pruneLoop_coverage beamSize
        (sortDesc Cand.score (prevCompleted.map Cand.done ++ conts)) s 0
        (dedupSketches (beam.map (·.sketch))) emptyAcc hx hcsort with h | h | h
    · exact Or.inl h
    · exact Or.inr (Or.inl h)
    · obtain ⟨c', hc'm, hc's⟩ := h
      exact Or.inr (Or.inr ⟨c', (mem_sortDesc _ _ _).mp hc'm, hc's⟩)

/-- **C3 counterexample**: with `force_sketch_coverage=True` and beam
width 1, sketch `skC3` is present in the prior beam and has exactly one
valid candidate continuation, yet after the merge-and-prune step it is
represented neither in the new beam nor in the completed pool — the
admitted continuation completed with the error flag and was dropped, so
the claim as stated fails at this input. -/
theorem C3_counterexample :
    beamC3.map (·.sketch) = [skC3] ∧
    genBeamCands trivWorld 0 [defaultRow] [envC3] [skC3] [0] 0 beamC3 =
      .ok [Cand.cont ⟨skC3, envC3, 7, 0, 0, 0, [0]⟩] ∧
    envBeamStep trivWorld 0 1 true [defaultRow] [envC3] [skC3] [0] 0 beamC3 [] =
      .ok ⟨[], [], [], [], []⟩ :=
  ⟨rfl, rfl, rfl⟩

theorem C3_amended_coverage_witness :
    (∃ h ∈ beamC3b, skeq h.sketch skC3 = true) ∧
    (match genBeamCands trivWorld 0 [defaultRow] [envC3b] [skC3] [0] 0 beamC3b,
           envBeamStep trivWorld 0 1 true [defaultRow] [envC3b] [skC3] [0] 0
             beamC3b [] with
     | .ok conts, .ok acc =>
         (∃ c ∈ conts, skeq c.sketch skC3 = true) →
         ((∃ h ∈ acc.newBeam, skeq h.sketch skC3 = true) ∨
          (∃ h ∈ acc.completedNew, skeq h.sketch skC3 = true) ∨
          (∃ c ∈ ([] : List BHyp).map Cand.done ++ conts,
             skeq c.sketch skC3 = true ∧ candOutcome c = .droppedError))
     | _, _ => True) :=
  ⟨⟨⟨skC3, envC3b, 0, []⟩, List.mem_singleton.mpr rfl, by decide⟩,
   C3_amended_coverage trivWorld 0 1 [defaultRow] [envC3b] [skC3] [0] 0 beamC3b []
     skC3 ⟨⟨skC3, envC3b, 0, []⟩, List.mem_singleton.mpr rfl, by decide⟩⟩

/-! ### Probability bookkeeping (C1) -/

/-- The running score entry of a row always equals the sum of the row's
recorded contributions. -/
theorem stepProbs_eq_contribs_sum (w : World) (st : SState)
    (hpc : ∀ i, st.probs.getD i 0 = (st.contribs.getD i []).sum) :
    ∀ i, (stepProbs w st).getD i 0 = ((stepContribsList w st).getD i []).sum := by
  intro i
  by_cases h : i < st.active.length
  · rw [stepProbs, getD_range_map _ _ _ _ h, stepContribsList, getD_range_map _ _ _ _ h]
    rw [List.sum_append, hpc i]
    simp
  · rw [stepProbs, getD_range_map_ge _ _ _ _ (le_of_not_lt h),
      stepContribsList, getD_range_map_ge _ _ _ _ (le_of_not_lt h)]
    rfl

/-- Inversion of the completed-rollout case of `processHyp`. -/
theorem processHyp_completedOk (w : World) (st : SState) (i : Nat) (c : CompletedEntry)
    (hp : processHyp w st i = .completedOk c) :
    c.prob = (st.sketches.getD i defaultSketch).prob + (stepProbs w st).getD i 0 ∧
    c.sketch = st.sketches.getD i defaultSketch ∧
    c.contribs = (stepContribsList w st).getD i [] := by
  unfold processHyp at hp
  dsimp only at hp
  split at hp
  · cases hp
  · split at hp
    · split at hp
      · cases hp
        exact ⟨rfl, rfl, rfl⟩
      · cases hp
    · split at hp <;> cases hp

/-- One Sampler step preserves the bookkeeping invariant. -/
theorem sampleStep_inv (w : World) (st st' : SState)
    (hok : sampleStep w st = .ok st')
    (hpc : ∀ i, st.probs.getD i 0 = (st.contribs.getD i []).sum)
    (hcc : ∀ c ∈ st.completed, entryOk c) :
    (∀ i, st'.probs.getD i 0 = (st'.contribs.getD i []).sum) ∧
    (∀ c ∈ st'.completed, entryOk c) := by
  have hstep := stepProbs_eq_contribs_sum w st hpc
  have hcompleted : ∀ c ∈ st.completed ++ (stepCompleted w st).map (·.2), entryOk c := by
    intro c hc
    rcases List.mem_append.mp hc with hold | hnew
    · exact hcc c hold
    · obtain ⟨p, hpm, hp2⟩ := List.mem_map.mp hnew
      obtain ⟨j, _, hjeq⟩ := List.mem_filterMap.mp hpm
      cases hpj : processHyp w st j <;> rw [hpj] at hjeq <;> simp at hjeq
      obtain ⟨h1, h2, h3⟩ := processHyp_completedOk w st j _ hpj
      rw [← hjeq] at hp2
      rw [← hp2]
      unfold entryOk
      rw [h1, h2, h3, hstep j]
  unfold sampleStep at hok
  cases hse : stepError w st with
  | some e => rw [hse] at hok; cases hok
  | none =>
    rw [hse] at hok
    by_cases hflag : hasCompletedSample w st = true
    · rw [if_pos hflag] at hok
      cases hok
      refine ⟨fun i => ?_, hcompleted⟩
      by_cases hi : i < (survivorIdx w st).length
      · rw [getD_map_lt _ _ _ _ 0 hi, getD_map_lt _ _ _ _ 0 hi]
        exact hstep _
      · rw [List.getD_eq_default _ _ (by simpa using le_of_not_lt hi),
          List.getD_eq_default _ _ (by simpa using le_of_not_lt hi)]
        rfl
    · rw [if_neg hflag] at hok
      cases hok
      exact ⟨hstep, hcompleted⟩

/-- The rollout loop only emits completed entries whose reported score is
the sketch prior plus the accumulated masked contributions. -/
theorem sampleLoop_entryOk (w : World) (fuel : Nat) :
    ∀ (st : SState),
    (∀ i, st.probs.getD i 0 = (st.contribs.getD i []).sum) →
    (∀ c ∈ st.completed, entryOk c) →
    ∀ cs, sampleLoop w fuel st = .ok cs → ∀ c ∈ cs, entryOk c := by
  induction fuel with
  | zero => intro st _ _ cs h; cases h
  | succ fuel ih =>
    intro st hpc hcc cs hrun c hc
    rw [sampleLoop] at hrun
    cases hs : sampleStep w st with
    | err e => rw [hs] at hrun; dsimp only at hrun; cases hrun
    | ok st' =>
      rw [hs] at hrun
      dsimp only at hrun
      obtain ⟨hpc', hcc'⟩ := sampleStep_inv w st st' hs hpc hcc
      by_cases hae : st'.active.isEmpty = true
      · rw [if_pos hae] at hrun
        cases hrun
        exact hcc' c hc
      · rw [if_neg hae] at hrun
        exact ih st' hpc' hcc' cs hrun c hc

/-- The Sampler's initial state satisfies the bookkeeping invariant. -/
theorem sampleInit_inv (pairs : List (Sketch × Env)) :
    (∀ i, (sampleInit pairs).probs.getD i 0 =
      ((sampleInit pairs).contribs.getD i []).sum) ∧
    (∀ c ∈ (sampleInit pairs).completed, entryOk c) := by
  constructor
  · intro i
    by_cases h : i < pairs.length
    · simp [sampleInit, List.getD_eq_getElem?_getD, List.getElem?_replicate, h]
    · simp [sampleInit, List.getD_eq_getElem?_getD, List.getElem?_replicate, h]
  · intro c hc
    simp [sampleInit] at hc

/-- The hypothesis produced by `_add_hypothesis_to_new_beam` keeps the
pool entry's sketch, score and contribution list. -/
theorem candOutcome_fields (c : Cand) :
    (∀ h, candOutcome c = .toCompleted h →
      h.sketch = c.sketch ∧ h.score = c.score ∧ h.contribs = c.contribs) ∧
    (∀ h p, candOutcome c = .toBeam h p →
      h.sketch = c.sketch ∧ h.score = c.score ∧ h.contribs = c.contribs) := by
  cases c with
  | done h0 =>
    refine ⟨fun h he => ?_, fun h p he => ?_⟩ <;> simp [candOutcome] at he
    · rw [← he]; exact ⟨rfl, rfl, rfl⟩
  | cont ch =>
    unfold candOutcome
    by_cases hd : (ch.prevEnv.clone.stepRel ch.relActionId).done = true
    · by_cases herr : (ch.prevEnv.clone.stepRel ch.relActionId).error = true
      · refine ⟨fun h he => ?_, fun h p he => ?_⟩ <;> simp [hd, herr] at he
      · refine ⟨fun h he => ?_, fun h p he => ?_⟩ <;> simp [hd, herr] at he
        rw [← he]; exact ⟨rfl, rfl, rfl⟩
    · refine ⟨fun h he => ?_, fun h p he => ?_⟩ <;> simp [hd] at he
      rw [← he.1]; exact ⟨rfl, rfl, rfl⟩

theorem applyCand_bhypOk (c : Cand) (acc : EnvAcc)
    (hc : candOk c)
    (hb : ∀ h ∈ acc.newBeam, bhypOk h)
    (hcm : ∀ h ∈ acc.completedNew, bhypOk h) :
    (∀ h ∈ (applyCand c acc).newBeam, bhypOk h) ∧
    (∀ h ∈ (applyCand c acc).completedNew, bhypOk h) := by
  unfold applyCand
  cases ho : candOutcome c with
  | toCompleted h0 =>
    refine ⟨hb, fun h hm => ?_⟩
    rcases List.mem_append.mp hm with hold | hnew
    · exact hcm h hold
    · obtain ⟨h1, h2, h3⟩ := (candOutcome_fields c).1 h0 ho
      rw [List.mem_singleton.mp hnew]
      unfold bhypOk
      rw [h1, h2, h3]
      exact hc
  | toBeam h0 p =>
    refine ⟨fun h hm => ?_, hcm⟩
    rcases List.mem_append.mp hm with hold | hnew
    · exact hb h hold
    · obtain ⟨h1, h2, h3⟩ := (candOutcome_fields c).2 h0 p ho
      rw [List.mem_singleton.mp hnew]
      unfold bhypOk
      rw [h1, h2, h3]
      exact hc
  | droppedError => exact ⟨hb, hcm⟩

theorem pruneLoop_bhypOk (beamSize : Nat) (force : Bool) (cands : List Cand) :
    ∀ (cnt : Nat) (notCov : List Sketch) (acc : EnvAcc),
    (∀ c ∈ cands, candOk c) →
    (∀ h ∈ acc.newBeam, bhypOk h) →
    (∀ h ∈ acc.completedNew, bhypOk h) →
    (∀ h ∈ (pruneLoop beamSize force cands cnt notCov acc).newBeam, bhypOk h) ∧
    (∀ h ∈ (pruneLoop beamSize force cands cnt notCov acc).completedNew, bhypOk h) := by
  induction cands with
  | nil =>
    intro _ _ _ _ hb hcm
    rw [pruneLoop]
    exact ⟨hb, hcm⟩
  | cons c rest ih =>
    intro cnt notCov acc hcands hb hcm
    have hc : candOk c := hcands c (List.mem_cons_self c rest)
    have hrest : ∀ c' ∈ rest, candOk c' :=
      fun c' h => hcands c' (List.mem_cons_of_mem c h)
    obtain ⟨hb', hcm'⟩ := applyCand_bhypOk c acc hc hb hcm
    by_cases hc1 : cnt < beamSize
    · simp only [pruneLoop, if_pos hc1]
      exact ih _ _ _ hrest hb' hcm'
    · simp only [pruneLoop, if_neg hc1]
      by_cases hc2 : (force && !notCov.isEmpty) = true
      · simp only [if_pos hc2]
        by_cases hc3 : ((notCov.filter fun s => skeq s c.sketch).isEmpty) = true
        · simp only [if_pos hc3]
          exact ih _ _ _ hrest hb hcm
        · simp only [if_neg hc3]
          exact ih _ _ _ hrest hb' hcm'
      · simp only [if_neg hc2]
        exact ih _ _ _ hrest hb hcm

/-- Every candidate generated for one hypothesis satisfies the score
bookkeeping: its score is the sketch prior plus the sum of its recorded
per-step masked contributions. -/
theorem genHypCands_candOk (w : World) (t : Nat) (dec : List DecRow) (obs : List Env)
    (skEnc : List Sketch) (hypScores : List ℤ) (pos : Nat) (hyp : BHyp)
    (hok : bhypOk hyp) (hsc : hypScores.getD pos 0 = hyp.score) :
    ∀ cs, genHypCands w t dec obs skEnc hypScores pos hyp = .ok cs →
    ∀ c ∈ cs, candOk c := by
  intro cs hg c hc
  unfold genHypCands at hg
  cases htok : hyp.sketch.tokens[t]? with
  | none => rw [htok] at hg; cases hg
  | some tok =>
    rw [htok] at hg
    dsimp only at hg
    by_cases hvar : w.isVarSlot tok = true
    · rw [if_pos hvar] at hg
      cases hg
      obtain ⟨ra, _, hraeq⟩ := List.mem_filterMap.mp hc
      cases hsc2 : w.actionScore (dec.getD pos defaultRow) (obs.getD pos defaultEnv)
          ra.2 with
      | none => rw [hsc2] at hraeq; cases hraeq
      | some sval =>
        rw [hsc2] at hraeq
        dsimp only at hraeq
        cases hraeq
        unfold candOk Cand.score Cand.sketch Cand.contribs
        dsimp only
        rw [hsc, hok, List.sum_append]
        simp
        ring
    · rw [if_neg hvar] at hg
      by_cases hmem : hyp.env.lookup tok ∈ hyp.env.validActions
      · rw [if_pos hmem] at hg
        cases hg
        rw [List.mem_singleton.mp hc]
        unfold candOk Cand.score Cand.sketch Cand.contribs
        dsimp only
        rw [hok, List.sum_append]
        simp
      · rw [if_neg hmem] at hg
        cases hg
        simp at hc

theorem genBeamCands_candOk (w : World) (t : Nat) (dec : List DecRow) (obs : List Env)
    (skEnc : List Sketch) :
    ∀ (beam : List BHyp) (hypScores : List ℤ) (start : Nat) (tail : List ℤ),
    (∀ h ∈ beam, bhypOk h) →
    hypScores.drop start = beam.map (·.score) ++ tail →
    ∀ cs, genBeamCands w t dec obs skEnc hypScores start beam = .ok cs →
    ∀ c ∈ cs, candOk c := by
  intro beam
  induction beam with
  | nil =>
    intro _ _ _ _ _ cs hg c hc
    rw [genBeamCands] at hg
    cases hg
    simp at hc
  | cons hyp rest ih =>
    intro hypScores start tail hok hdrop cs hg c hc
    have hsc : hypScores.getD start 0 = hyp.score := by
      have h0 : (hypScores.drop start).getD 0 0 = hyp.score := by rw [hdrop]; rfl
      rw [← h0]
      simp [List.getD_eq_getElem?_getD, List.getElem?_drop]
    have hdrop' : hypScores.drop (start + 1) = rest.map (·.score) ++ tail := by
      have h1 : (hypScores.drop start).drop 1 = hypScores.drop (start + 1) :=
        List.drop_drop 1 start hypScores
      rw [← h1, hdrop]
      rfl
    rw [genBeamCands] at hg
    cases hg1 : genHypCands w t dec obs skEnc hypScores start hyp with
    | err e => rw [hg1] at hg; cases hg
    | ok cs1 =>
      rw [hg1] at hg
      dsimp only at hg
      cases hg2 : genBeamCands w t dec obs skEnc hypScores (start + 1) rest with
      | err e => rw [hg2] at hg; cases hg
      | ok cs2 =>
        rw [hg2] at hg
        dsimp only at hg
        cases hg
        rcases List.mem_append.mp hc with h1 | h2
        · exact genHypCands_candOk w t dec obs skEnc hypScores start hyp
            (hok hyp (List.mem_cons_self _ _)) hsc cs1 hg1 c h1
        · exact ih hypScores (start + 1) tail
            (fun h hm => hok h (List.mem_cons_of_mem _ hm)) hdrop' cs2 hg2 c h2

theorem getAssoc_ok (P : BHyp → Prop) (k : String) (l : List (String × List BHyp))
    (hl : ∀ p ∈ l, ∀ h ∈ p.2, P h) : ∀ h ∈ getAssoc k l, P h := by
  induction l with
  | nil => intro h hm; simp [getAssoc] at hm
  | cons p rest ih =>
    intro h hm
    obtain ⟨k', v⟩ := p
    rw [getAssoc] at hm
    by_cases hk : (k' == k) = true
    · rw [if_pos hk] at hm
      exact hl (k', v) (List.mem_cons_self _ _) h hm
    · rw [if_neg hk] at hm
      exact ih (fun q hq => hl q (List.mem_cons_of_mem _ hq)) h hm

theorem setAssoc_ok (P : BHyp → Prop) (k : String) (v : List BHyp)
    (l : List (String × List BHyp))
    (hv : ∀ h ∈ v, P h) (hl : ∀ p ∈ l, ∀ h ∈ p.2, P h) :
    ∀ p ∈ setAssoc k v l, ∀ h ∈ p.2, P h := by
  induction l with
  | nil =>
    intro p hp
    rw [setAssoc] at hp
    rw [List.mem_singleton.mp hp]
    exact hv
  | cons q rest ih =>
    intro p hp
    obtain ⟨k', v'⟩ := q
    rw [setAssoc] at hp
    by_cases hk : (k' == k) = true
    · rw [if_pos hk] at hp
      rcases List.mem_cons.mp hp with rfl | hmem
      · exact hv
      · exact fun h hm => hl p (List.mem_cons_of_mem _ hmem) h hm
    · rw [if_neg hk] at hp
      rcases List.mem_cons.mp hp with rfl | hmem
      · exact fun h hm => hl (k', v') (List.mem_cons_self _ _) h hm
      · exact ih (fun q hq => hl q (List.mem_cons_of_mem _ hq)) p hmem

/-- `beamsFold` preserves score bookkeeping across all questions. -/
theorem beamsFold_bhypOk (w : World) (t beamSize : Nat) (force : Bool)
    (dec : List DecRow) (obs : List Env) (skEnc : List Sketch) :
    ∀ (beams : List (String × List BHyp)) (hypScores : List ℤ) (start : Nat)
      (completed : List (String × List BHyp)),
    (∀ p ∈ beams, ∀ h ∈ p.2, bhypOk h) →
    (∀ p ∈ completed, ∀ h ∈ p.2, bhypOk h) →
    hypScores.drop start = (joinHyps beams).map (·.score) →
    match beamsFold w t beamSize force dec obs skEnc hypScores start beams completed with
    | .ok out =>
        (∀ p ∈ out.newBeams, ∀ h ∈ p.2, bhypOk h) ∧
        (∀ p ∈ out.completed, ∀ h ∈ p.2, bhypOk h)
    | .err _ => True := by
  intro beams
  induction beams with
  | nil =>
    intro hypScores start completed _ hcomp _
    simp only [beamsFold]
    exact ⟨by simp, hcomp⟩
  | cons nb rest ih =>
    intro hypScores start completed hbeams hcomp hdrop
    obtain ⟨name, beam⟩ := nb
    simp only [beamsFold]
    cases he : envBeamStep w t beamSize force dec obs skEnc hypScores start beam
        (getAssoc name completed) with
    | err e => exact trivial
    | ok acc =>
      dsimp only
      have haccok : (∀ h ∈ acc.newBeam, bhypOk h) ∧
          (∀ h ∈ acc.completedNew, bhypOk h) := by
        revert he
        unfold envBeamStep
        cases hg : genBeamCands w t dec obs skEnc hypScores start beam with
        | err e => intro h; cases h
        | ok conts =>
          intro h
          cases h
          have hcontsOk : ∀ c ∈ conts, candOk c := by
            refine genBeamCands_candOk w t dec obs skEnc beam hypScores start
              ((joinHyps rest).map (·.score))
              (fun h hm => hbeams (name, beam) (List.mem_cons_self _ _) h hm)
              ?_ conts hg
            rw [hdrop]
            simp [joinHyps]
          have hprev : ∀ h0 ∈ getAssoc name completed, bhypOk h0 :=
            getAssoc_ok _ _ _ hcomp
          have hpool : ∀ c ∈ sortDesc Cand.score
              ((getAssoc name completed).map Cand.done ++ conts), candOk c := by
            intro c hcm
            rcases List.mem_append.mp ((mem_sortDesc _ _ _).mp hcm) with h1 | h2
            · obtain ⟨h0, hh0, rfl⟩ := List.mem_map.mp h1
              exact hprev h0 hh0
            · exact hcontsOk c h2
          exact pruneLoop_bhypOk beamSize force _ 0 _ emptyAcc hpool
            (by simp [emptyAcc]) (by simp [emptyAcc])
      have hrest : ∀ p ∈ rest, ∀ h ∈ p.2, bhypOk h :=
        fun p hp => hbeams p (List.mem_cons_of_mem _ hp)
      have hcomp' : ∀ p ∈ setAssoc name acc.completedNew completed,
          ∀ h ∈ p.2, bhypOk h :=
        setAssoc_ok _ _ _ _ haccok.2 hcomp
      have hdrop' : hypScores.drop (start + beam.length) =
          (joinHyps rest).map (·.score) := by
        have h1 : (hypScores.drop start).drop beam.length =
            hypScores.drop (start + beam.length) := by
          rw [List.drop_drop]
        rw [← h1, hdrop]
        have : (joinHyps ((name, beam) :: rest)).map (·.score) =
            beam.map (·.score) ++ (joinHyps rest).map (·.score) := by
          simp [joinHyps]
        rw [this]
        rw [List.drop_append_of_le_length (by simp)]
        simp
      have hrec := ih hypScores (start + beam.length)
        (setAssoc name acc.completedNew completed) hrest hcomp' hdrop'
      cases hf : beamsFold w t beamSize force dec obs skEnc hypScores
          (start + beam.length) rest (setAssoc name acc.completedNew completed) with
      | err e => exact trivial
      | ok out =>
        rw [hf] at hrec
        obtain ⟨r1, r2⟩ := hrec
        refine ⟨?_, r2⟩
        intro p hp
        rcases List.mem_append.mp hp with h1 | h2
        · by_cases hemp : acc.newBeam.isEmpty = true
          · rw [if_pos hemp] at h1
            simp at h1
          · rw [if_neg hemp] at h1
            rw [List.mem_singleton.mp h1]
            exact haccok.1
        · exact r1 p h2

/-- One beam-search step preserves the bookkeeping invariant. -/
theorem beamStep_inv (w : World) (beamSize : Nat) (force : Bool) (bst bst' : BState)
    (hok : beamStep w beamSize force bst = .ok bst')
    (hb : ∀ p ∈ bst.beams, ∀ h ∈ p.2, bhypOk h)
    (hcomp : ∀ p ∈ bst.completed, ∀ h ∈ p.2, bhypOk h)
    (hsc : bst.hypScores = (joinHyps bst.beams).map (·.score)) :
    (∀ p ∈ bst'.beams, ∀ h ∈ p.2, bhypOk h) ∧
    (∀ p ∈ bst'.completed, ∀ h ∈ p.2, bhypOk h) ∧
    bst'.hypScores = (joinHyps bst'.beams).map (·.score) := by
  unfold beamStep at hok
  have hall := beamsFold_bhypOk w bst.t beamSize force bst.dec bst.obs bst.skEnc
    bst.beams bst.hypScores 0 bst.completed hb hcomp
    (by rw [List.drop_zero]; exact hsc)
  have hshape := beamsFold_shape w bst.t beamSize force bst.dec bst.obs bst.skEnc
    bst.hypScores 0 bst.beams bst.completed
  cases hf : beamsFold w bst.t beamSize force bst.dec bst.obs bst.skEnc
      bst.hypScores 0 bst.beams bst.completed with
  | err e => rw [hf] at hok; cases hok
  | ok out =>
    rw [hf] at hok hall hshape
    dsimp only at hok
    cases hok
    exact ⟨hall.1, hall.2, hshape.2.1⟩

/-- The beam-search loop only emits pools of score-consistent hypotheses. -/
theorem beamLoop_bhypOk (w : World) (beamSize : Nat) (force : Bool) :
    ∀ (fuel : Nat) (bst : BState),
    (∀ p ∈ bst.beams, ∀ h ∈ p.2, bhypOk h) →
    (∀ p ∈ bst.completed, ∀ h ∈ p.2, bhypOk h) →
    bst.hypScores = (joinHyps bst.beams).map (·.score) →
    ∀ pools, beamLoop w beamSize force fuel bst = .ok pools →
    ∀ p ∈ pools, ∀ h ∈ p.2, bhypOk h := by
  intro fuel
  induction fuel with
  | zero =>
    intro bst _ hcomp _ pools hrun
    rw [beamLoop] at hrun
    by_cases hbe : bst.beams.isEmpty = true
    · rw [if_pos hbe] at hrun; cases hrun; exact hcomp
    · rw [if_neg hbe] at hrun; cases hrun
  | succ fuel ih =>
    intro bst hb hcomp hsc pools hrun
    rw [beamLoop] at hrun
    by_cases hbe : bst.beams.isEmpty = true
    · rw [if_pos hbe] at hrun; cases hrun; exact hcomp
    · rw [if_neg hbe] at hrun
      cases hs : beamStep w beamSize force bst with
      | err e => rw [hs] at hrun; dsimp only at hrun; cases hrun
      | ok bst' =>
        rw [hs] at hrun
        dsimp only at hrun
        obtain ⟨hb', hcomp', hsc'⟩ := beamStep_inv w beamSize force bst bst' hs hb hcomp hsc
        exact ih bst' hb' hcomp' hsc' pools hrun

/-- Every finalized sample is the conversion of a pool hypothesis. -/
theorem finalizeHyps_mem (beamSize : Nat) (l : List BHyp) (smp : Sample)
    (hm : smp ∈ finalizeHyps beamSize l) :
    ∃ h ∈ l, smp = ⟨Traj.fromEnv h.env, h.score⟩ := by
  unfold finalizeHyps at hm
  obtain ⟨h, hh, rfl⟩ := List.mem_map.mp hm
  exact ⟨h, (mem_sortDesc _ _ _).mp (List.mem_of_mem_take hh), rfl⟩

/-- The beam search's initial state satisfies the bookkeeping invariant:
every initial hypothesis's score is its sketch prior with an empty
contribution list, and the score buffer mirrors the flattened beams. -/
theorem initBState_inv (w : World) (consk : Option (List (String × List Sketch)))
    (envs : List Env) :
    (∀ p ∈ (initBState w consk envs).beams, ∀ h ∈ p.2, bhypOk h) ∧
    (∀ p ∈ (initBState w consk envs).completed, ∀ h ∈ p.2, bhypOk h) ∧
    (initBState w consk envs).hypScores =
      (joinHyps (initBState w consk envs).beams).map (·.score) := by
  refine ⟨?_, ?_, rfl⟩
  · intro p hp h hm
    simp only [initBState, initBeams] at hp
    obtain ⟨e, _, rfl⟩ := List.mem_map.mp hp
    obtain ⟨sk, _, rfl⟩ := List.mem_map.mp hm
    unfold bhypOk
    simp
  · intro p hp h hm
    simp only [initBState] at hp
    obtain ⟨e, _, rfl⟩ := List.mem_map.mp hp
    simp at hm

/-- **C1 (amended)**: for every completed trajectory returned by the
Sampler (`sampleRun`, the completed pool of `PGAgent.sample`) or the
Beam Search Engine (`newBeamSearch`), the reported probability field
equals the log-domain score: the sketch prior log-probability plus the
sum of the per-step masked log-probability contributions accumulated for
the chosen actions.  No exponentiation is applied (the original claim's
`exp` is refuted by `C1_counterexample_exp`). -/
theorem C1_amended_log_score :
    (∀ (w : World) (envs : List Env) (n fuel : Nat),
      match sampleRun w envs n fuel with
      | .ok cs => ∀ c ∈ cs, c.prob = c.sketch.prob + c.contribs.sum
      | .err _ => True) ∧
    (∀ (w : World) (envs : List Env) (beamSize : Nat)
       (consk : Option (List (String × List Sketch))) (strict force : Bool)
       (fuel : Nat),
      match newBeamSearch w envs beamSize consk strict force fuel with
      | .ok results => ∀ r ∈ results, ∀ smp ∈ r.2,
          ∃ h : BHyp, smp = ⟨Traj.fromEnv h.env, h.score⟩ ∧
            h.score = h.sketch.prob + h.contribs.sum
      | .err _ => True) := by
  constructor
  · intro w envs n fuel
    cases hrun : sampleRun w envs n fuel with
    | err e => exact trivial
    | ok cs =>
      intro c hc
      unfold sampleRun at hrun
      by_cases hn : n = 0
      · rw [if_pos hn] at hrun
        cases hrun
        simp at hc
      · rw [if_neg hn] at hrun
        dsimp only at hrun
        by_cases hp : (flattenSketchEnvs w n envs).isEmpty = true
        · rw [if_pos hp] at hrun
          cases hrun
          simp at hc
        · rw [if_neg hp] at hrun
          obtain ⟨hpc, hcc⟩ := sampleInit_inv (flattenSketchEnvs w n envs)
          exact sampleLoop_entryOk w fuel _ hpc hcc cs hrun c hc
  · intro w envs beamSize consk strict force fuel
    cases hrun : newBeamSearch w envs beamSize consk strict force fuel with
    | err e => exact trivial
    | ok results =>
      intro r hr smp hsmp
      unfold newBeamSearch at hrun
      dsimp only at hrun
      by_cases hz : (joinHyps (initBState w consk envs).beams).length = 0
      · rw [if_pos hz] at hrun
        cases hrun
        obtain ⟨nc, _, rfl⟩ := List.mem_map.mp hr
        simp at hsmp
      · rw [if_neg hz] at hrun
        cases hloop : beamLoop w beamSize force fuel (initBState w consk envs) with
        | err e => rw [hloop] at hrun; cases hrun
        | ok pools =>
          rw [hloop] at hrun
          dsimp only at hrun
          cases hrun
          obtain ⟨i1, i2, i3⟩ := initBState_inv w consk envs
          have hpools := beamLoop_bhypOk w beamSize force fuel _ i1 i2 i3 pools hloop
          obtain ⟨nc, hnc, rfl⟩ := List.mem_map.mp hr
          dsimp only at hsmp
          obtain ⟨h, hhm, rfl⟩ := finalizeHyps_mem beamSize nc.2 smp hsmp
          exact ⟨h, rfl, hpools nc hnc h hhm⟩

/-- **C1 counterexample**: this one-step rollout completes with sketch
prior 0 and masked step contribution 0, and the Sampler reports
probability field 0 — but the claim as stated demands
`exp(0 + 0) = 1 ≠ 0`.  The probability field stores the log-domain sum
itself, never its exponential. -/
theorem C1_counterexample_exp :
    sampleImpl wC1 [envC1] 1 10 = .ok [⟨⟨"q0", [5]⟩, 0⟩] ∧
    ((0 : ℝ) ≠ Real.exp (0 + 0)) := by
  constructor
  · decide
  · rw [add_zero, Real.exp_zero]
    norm_num

/-! ### Zero-sketch questions (C8) -/

theorem getAssoc_cons_ne (k nm : String) (v : List BHyp)
    (l : List (String × List BHyp)) (h : nm ≠ k) :
    getAssoc k ((nm, v) :: l) = getAssoc k l := by
  rw [getAssoc, if_neg (by simpa using h)]

theorem setAssoc_cons_ne (k nm : String) (v0 v : List BHyp)
    (l : List (String × List BHyp)) (h : nm ≠ k) :
    setAssoc k v ((nm, v0) :: l) = (nm, v0) :: setAssoc k v l := by
  rw [setAssoc, if_neg (by simpa using h)]

/-- Every question in the fold's new beams was already a question of the
input beams. -/
theorem beamsFold_keys (w : World) (t beamSize : Nat) (force : Bool)
    (dec : List DecRow) (obs : List Env) (skEnc : List Sketch) (hypScores : List ℤ) :
    ∀ (beams : List (String × List BHyp)) (start : Nat)
      (completed : List (String × List BHyp)),
    match beamsFold w t beamSize force dec obs skEnc hypScores start beams completed with
    | .ok out => ∀ p ∈ out.newBeams, ∃ q ∈ beams, p.1 = q.1
    | .err _ => True := by
  intro beams
  induction beams with
  | nil =>
    intro start completed
    simp [beamsFold]
  | cons nb rest ih =>
    intro start completed
    obtain ⟨name, beam⟩ := nb
    simp only [beamsFold]
    cases he : envBeamStep w t beamSize force dec obs skEnc hypScores start beam
        (getAssoc name completed) with
    | err e => exact trivial
    | ok acc =>
      dsimp only
      cases hf : beamsFold w t beamSize force dec obs skEnc hypScores
          (start + beam.length) rest (setAssoc name acc.completedNew completed) with
      | err e => exact trivial
      | ok out =>
        have hrec := ih (start + beam.length) (setAssoc name acc.completedNew completed)
        rw [hf] at hrec
        intro p hp
        rcases List.mem_append.mp hp with h1 | h2
        · by_cases hemp : acc.newBeam.isEmpty = true
          · rw [if_pos hemp] at h1
            simp at h1
          · rw [if_neg hemp] at h1
            rw [List.mem_singleton.mp h1]
            exact ⟨(name, beam), List.mem_cons_self _ _, rfl⟩
        · obtain ⟨q, hq, hpq⟩ := hrec p h2
          exact ⟨q, List.mem_cons_of_mem _ hq, hpq⟩

theorem beamStep_keys (w : World) (beamSize : Nat) (force : Bool) (st st' : BState)
    (hok : beamStep w beamSize force st = .ok st') :
    ∀ p ∈ st'.beams, ∃ q ∈ st.beams, p.1 = q.1 := by
  unfold beamStep at hok
  have hkeys := beamsFold_keys w st.t beamSize force st.dec st.obs st.skEnc
    st.hypScores st.beams 0 st.completed
  cases hf : beamsFold w st.t beamSize force st.dec st.obs st.skEnc st.hypScores
      0 st.beams st.completed with
  | err e => rw [hf] at hok; cases hok
  | ok out =>
    rw [hf] at hok hkeys
    dsimp only at hok
    cases hok
    exact hkeys

/-- An extra empty completed-pool entry for a question not present in the
beams passes through the fold untouched. -/
theorem beamsFold_prepend (w : World) (t beamSize : Nat) (force : Bool)
    (dec : List DecRow) (obs : List Env) (skEnc : List Sketch) (hypScores : List ℤ)
    (nm : String) :
    ∀ (beams : List (String × List BHyp)) (start : Nat)
      (completed : List (String × List BHyp)),
    (∀ p ∈ beams, p.1 ≠ nm) →
    beamsFold w t beamSize force dec obs skEnc hypScores start beams
      ((nm, []) :: completed) =
    (match beamsFold w t beamSize force dec obs skEnc hypScores start beams
        completed with
     | .ok out => .ok { out with completed := (nm, []) :: out.completed }
     | .err e => .err e) := by
  intro beams
  induction beams with
  | nil => intro start completed _; rfl
  | cons nb rest ih =>
    intro start completed hk
    obtain ⟨name, beam⟩ := nb
    have hname : nm ≠ name :=
      fun h => (hk (name, beam) (List.mem_cons_self _ _)) h.symm
    simp only [beamsFold, getAssoc_cons_ne name nm [] completed hname]
    cases he : envBeamStep w t beamSize force dec obs skEnc hypScores start beam
        (getAssoc name completed) with
    | err e => rfl
    | ok acc =>
      dsimp only
      rw [setAssoc_cons_ne name nm [] acc.completedNew completed hname]
      rw [ih (start + beam.length) (setAssoc name acc.completedNew completed)
        (fun p hp => hk p (List.mem_cons_of_mem _ hp))]
      cases hf : beamsFold w t beamSize force dec obs skEnc hypScores
          (start + beam.length) rest (setAssoc name acc.completedNew completed) with
      | err e => rfl
      | ok out => rfl

/-- A beam-search step on a state with an extra empty completed-pool
entry produces the same step with the entry still prepended. -/
theorem beamStep_prepend (w : World) (beamSize : Nat) (force : Bool) (nm : String)
    (st : BState) (hk : ∀ p ∈ st.beams, p.1 ≠ nm) :
    beamStep w beamSize force (prependCompleted nm st) =
    (match beamStep w beamSize force st with
     | .ok st' => .ok (prependCompleted nm st')
     | .err e => .err e) := by
  unfold beamStep prependCompleted
  dsimp only
  rw [beamsFold_prepend w st.t beamSize force st.dec st.obs st.skEnc st.hypScores nm
    st.beams 0 st.completed hk]
  cases hf : beamsFold w st.t beamSize force st.dec st.obs st.skEnc st.hypScores
      0 st.beams st.completed with
  | err e => rfl
  | ok out => rfl

/-- A beam-search step on a state with an extra zero-sketch question:
the question contributes nothing, drops out of the beams, and keeps its
empty completed pool. -/
theorem beamStep_withEmptyEnv (w : World) (beamSize : Nat) (force : Bool)
    (nm : String) (st : BState) (hk : ∀ p ∈ st.beams, p.1 ≠ nm) :
    beamStep w beamSize force (withEmptyEnv nm st) =
    (match beamStep w beamSize force st with
     | .ok st' => .ok (prependCompleted nm st')
     | .err e => .err e) := by
  unfold beamStep withEmptyEnv
  dsimp only
  have hjoin : joinHyps ((nm, ([] : List BHyp)) :: st.beams) = joinHyps st.beams := by
    simp [joinHyps]
  have hdec : bDecStepped { st with
      beams := (nm, ([] : List BHyp)) :: st.beams,
      completed := (nm, []) :: st.completed } = bDecStepped st := by
    unfold bDecStepped
    dsimp only
    rw [hjoin]
  rw [hdec]
  simp only [beamsFold]
  rw [show getAssoc nm ((nm, ([] : List BHyp)) :: st.completed) = [] by
    rw [getAssoc, if_pos (by simp)]]
  rw [show envBeamStep w st.t beamSize force st.dec st.obs st.skEnc st.hypScores 0 []
      [] = .ok emptyAcc by rfl]
  dsimp only
  simp only [emptyAcc, List.length_nil, Nat.add_zero, List.nil_append,
    List.isEmpty_nil, if_true]
  rw [show setAssoc nm ([] : List BHyp) ((nm, ([] : List BHyp)) :: st.completed) =
      (nm, ([] : List BHyp)) :: st.completed by rw [setAssoc, if_pos (by simp)]]
  rw [beamsFold_prepend w st.t beamSize force st.dec st.obs st.skEnc st.hypScores nm
    st.beams 0 st.completed hk]
  cases hf : beamsFold w st.t beamSize force st.dec st.obs st.skEnc st.hypScores
      0 st.beams st.completed with
  | err e => rfl
  | ok out =>
    dsimp only
    simp [prependCompleted]

/-- The loop ignores an extra empty completed-pool entry. -/
theorem beamLoop_prepend (w : World) (beamSize : Nat) (force : Bool) (nm : String) :
    ∀ (fuel : Nat) (st : BState), (∀ p ∈ st.beams, p.1 ≠ nm) →
    beamLoop w beamSize force fuel (prependCompleted nm st) =
    (match beamLoop w beamSize force fuel st with
     | .ok pools => .ok ((nm, []) :: pools)
     | .err e => .err e) := by
  intro fuel
  induction fuel with
  | zero =>
    intro st _
    rw [beamLoop, beamLoop]
    by_cases hbe : st.beams.isEmpty = true
    · rw [if_pos hbe, if_pos (by simpa [prependCompleted] using hbe)]
      try rfl
    · rw [if_neg hbe, if_neg (by simpa [prependCompleted] using hbe)]
      try rfl
  | succ fuel ih =>
    intro st hk
    rw [beamLoop, beamLoop]
    by_cases hbe : st.beams.isEmpty = true
    · rw [if_pos hbe, if_pos (by simpa [prependCompleted] using hbe)]
      try rfl
    · rw [if_neg hbe, if_neg (by simpa [prependCompleted] using hbe)]
      rw [beamStep_prepend w beamSize force nm st hk]
      cases hs : beamStep w beamSize force st with
      | err e => rfl
      | ok st' =>
        dsimp only
        refine ih st' fun p hp => ?_
        obtain ⟨q, hq, hpq⟩ := beamStep_keys w beamSize force st st' hs p hp
        rw [hpq]
        exact hk q hq

/-- The loop on a state with an extra zero-sketch question returns the
same pools with that question's (empty) pool prepended. -/
theorem beamLoop_withEmptyEnv (w : World) (beamSize : Nat) (force : Bool)
    (nm : String) (fuel : Nat) (st : BState)
    (hk : ∀ p ∈ st.beams, p.1 ≠ nm) (hne : st.beams.isEmpty = false) :
    beamLoop w beamSize force fuel (withEmptyEnv nm st) =
    (match beamLoop w beamSize force fuel st with
     | .ok pools => .ok ((nm, []) :: pools)
     | .err e => .err e) := by
  cases fuel with
  | zero =>
    rw [beamLoop, beamLoop]
    rw [if_neg (by simp [withEmptyEnv]), if_neg (by simp [hne])]
    try rfl
  | succ fuel =>
    rw [beamLoop, beamLoop]
    rw [if_neg (by simp [withEmptyEnv]), if_neg (by simp [hne])]
    rw [beamStep_withEmptyEnv w beamSize force nm st hk]
    cases hs : beamStep w beamSize force st with
    | err e => rfl
    | ok st' =>
      dsimp only
      refine beamLoop_prepend w beamSize force nm fuel st' fun p hp => ?_
      obtain ⟨q, hq, hpq⟩ := beamStep_keys w beamSize force st st' hs p hp
      rw [hpq]
      exact hk q hq

/-- A question with zero candidate sketches contributes nothing to the
Sampler's flattened hypothesis list. -/
theorem flattenSketchEnvs_zero (w : World) (n : Nat) (e : Env) (rest : List Env)
    (hz : w.getSketches e = []) :
    flattenSketchEnvs w n (e :: rest) = flattenSketchEnvs w n rest := by
  rw [flattenSketchEnvs]
  simp [hz]

/-- With zero predicted sketches, the beam search's initial state is the
rest-of-batch state with one extra empty question. -/
theorem initBState_zero (w : World) (e : Env) (rest : List Env)
    (hz : w.getSketches e = []) :
    initBState w none (e :: rest) = withEmptyEnv e.name (initBState w none rest) := by
  have hb : initBeams w none (e :: rest) =
      (e.name, []) :: initBeams w none rest := by
    rw [initBeams, List.map_cons]
    rw [show envSketches w none e = [] from by simp [envSketches, hz]]
    rfl
  have hj2 : joinHyps ((e.name, ([] : List BHyp)) :: initBeams w none rest) =
      joinHyps (initBeams w none rest) := by
    simp [joinHyps]
  unfold initBState withEmptyEnv
  dsimp only
  rw [hb, hj2]
  rfl

/-- **C8**: a question whose sketch prediction yields zero candidate
sketches produces an empty result without raising, and the processing of
the other questions in the batch is unaffected: the Sampler's run is
literally the run without that question, and the Beam Search Engine's run
is the run without it plus one empty entry for the question's name. -/
theorem C8_zero_sketches (w : World) (e : Env) (rest : List Env)
    (n fuel beamSize : Nat) (strict force : Bool)
    (hz : w.getSketches e = [])
    (hname : ∀ e' ∈ rest, e'.name ≠ e.name) :
    sampleImpl w (e :: rest) n fuel = sampleImpl w rest n fuel ∧
    newBeamSearch w (e :: rest) beamSize none strict force fuel =
      (match newBeamSearch w rest beamSize none strict force fuel with
       | .ok results => .ok ((e.name, []) :: results)
       | .err er => .err er) := by
  constructor
  · unfold sampleImpl sampleRun
    dsimp only
    rw [flattenSketchEnvs_zero w n e rest hz]
  · unfold newBeamSearch
    rw [initBState_zero w e rest hz]
    dsimp only
    have hkeys : ∀ p ∈ (initBState w none rest).beams, p.1 ≠ e.name := by
      intro p hp
      simp only [initBState, initBeams] at hp
      obtain ⟨e', he', rfl⟩ := List.mem_map.mp hp
      exact hname e' he'
    have hjoin : joinHyps (withEmptyEnv e.name (initBState w none rest)).beams =
        joinHyps (initBState w none rest).beams := by
      simp [withEmptyEnv, joinHyps]
    rw [hjoin]
    by_cases hlen : (joinHyps (initBState w none rest).beams).length = 0
    · rw [if_pos hlen, if_pos hlen]
      rfl
    · rw [if_neg hlen, if_neg hlen]
      have hne : (initBState w none rest).beams.isEmpty = false := by
        rcases h : (initBState w none rest).beams with _ | ⟨p, ps⟩
        · exact absurd (by rw [h]; rfl) hlen
        · rfl
      rw [beamLoop_withEmptyEnv w beamSize force e.name fuel _ hkeys hne]
      cases hl : beamLoop w beamSize force fuel (initBState w none rest) with
      | err er => rfl
      | ok pools =>
        dsimp only
        simp [finalizeHyps, sortDesc]

theorem C8_zero_sketches_witness :
    (trivWorld.getSketches defaultEnv = [] ∧
     (∀ e' ∈ ([] : List Env), e'.name ≠ defaultEnv.name)) ∧
    (sampleImpl trivWorld [defaultEnv] 1 1 = sampleImpl trivWorld [] 1 1 ∧
     newBeamSearch trivWorld [defaultEnv] 2 none false false 1 =
       (match newBeamSearch trivWorld [] 2 none false false 1 with
        | .ok results => .ok ((defaultEnv.name, []) :: results)
        | .err er => .err er)) :=
  ⟨⟨rfl, by simp⟩,
   C8_zero_sketches trivWorld defaultEnv [] 1 1 2 false false rfl (by simp)⟩

/-- **C7**: a candidate whose environment completes with the error flag
set is silently discarded: in the Beam Search Engine
`_add_hypothesis_to_new_beam` classifies it as `droppedError` and leaves
every accumulator unchanged (no beam entry, no completed entry, no
exception), and every sample returned by the Sampler originates from a
completed environment whose error flag is unset. -/
theorem C7_error_completion_discarded :
    (∀ (ch : ContHyp) (acc : EnvAcc),
      (ch.prevEnv.clone.stepRel ch.relActionId).done = true →
      (ch.prevEnv.clone.stepRel ch.relActionId).error = true →
      candOutcome (.cont ch) = .droppedError ∧ applyCand (.cont ch) acc = acc) ∧
    (∀ (w : World) (envs : List Env) (n fuel : Nat),
      match sampleRun w envs n fuel, sampleImpl w envs n fuel with
      | .ok cs, .ok samples =>
          ∀ s ∈ samples, ∃ c ∈ cs, c.env.error = false ∧
            s = ⟨Traj.fromEnv c.env, c.prob⟩
      | _, _ => True) := by
  constructor
  · intro ch acc h1 h2
    have hout : candOutcome (.cont ch) = .droppedError := by
      simp [candOutcome, h1, h2]
    exact ⟨hout, by simp [applyCand, hout]⟩
  · intro w envs n fuel
    cases hr : sampleRun w envs n fuel with
    | err e => simp [sampleImpl, hr]
    | ok cs =>
      simp only [sampleImpl, hr]
      intro s hs
      obtain ⟨c, hcf, rfl⟩ := List.mem_map.mp hs
      obtain ⟨hc, herr⟩ := List.mem_filter.mp hcf
      exact ⟨c, hc, by simpa using herr, rfl⟩

theorem C7_error_completion_discarded_witness :
    ((chC7.prevEnv.clone.stepRel chC7.relActionId).done = true ∧
     (chC7.prevEnv.clone.stepRel chC7.relActionId).error = true) ∧
    (candOutcome (.cont chC7) = .droppedError ∧
     applyCand (.cont chC7) emptyAcc = emptyAcc) :=
  ⟨⟨by decide, by decide⟩,
   C7_error_completion_discarded.1 chC7 emptyAcc (by decide) (by decide)⟩

theorem C6_fixed_invalid_dropped_witness :
    (((⟨⟨["A"], 0⟩, defaultEnv, 0, []⟩ : BHyp).sketch.tokens[0]? = some "A" ∧
      trivWorld.isVarSlot "A" = false ∧
      ((⟨⟨["A"], 0⟩, defaultEnv, 0, []⟩ : BHyp).env.lookup "A" ∉
        (⟨⟨["A"], 0⟩, defaultEnv, 0, []⟩ : BHyp).env.validActions) ∧
      trivWorld.isVarSlot (tokenAt stC5 0) = false ∧
      stC5.t < (stC5.sketches.getD 0 defaultSketch).tokens.length ∧
      ((stC5.active.getD 0 defaultEnv).lookup (tokenAt stC5 0) ∉
        (stC5.active.getD 0 defaultEnv).validActions)) ∧
    (genHypCands trivWorld 0 [] [] [] [] 0 ⟨⟨["A"], 0⟩, defaultEnv, 0, []⟩ = .ok [] ∧
     processHyp trivWorld stC5 0 = .dropInvalid ∧
     0 ∉ survivorIdx trivWorld stC5 ∧
     0 ∉ (stepCompleted trivWorld stC5).map (·.1))) :=
  ⟨⟨by decide, by decide, by decide, by decide, by decide, by decide⟩,
   C6_fixed_invalid_dropped trivWorld 0 [] [] [] [] 0 _ "A"
     (by decide) (by decide) (by decide) stC5 0 (by decide) (by decide) (by decide)⟩

theorem C5_fixed_token_forced_witness :
    (0 < stC5.active.length ∧ trivWorld.isVarSlot (tokenAt stC5 0) = false ∧
     stC5.skEnc.getD 0 defaultSketch = stC5.sketches.getD 0 defaultSketch ∧
     stC5.t < (stC5.sketches.getD 0 defaultSketch).tokens.length) ∧
    (chosenAction trivWorld stC5 0 = (stC5.active.getD 0 defaultEnv).lookup (tokenAt stC5 0) ∧
     varMask trivWorld (stC5.skEnc.getD 0 defaultSketch) stC5.t = 0 ∧
     (stepProbs trivWorld stC5).getD 0 0 = stC5.probs.getD 0 0) :=
  ⟨⟨by decide, by decide, by decide, by decide⟩,
   C5_fixed_token_forced trivWorld stC5 0 (by decide) (by decide) (by decide) (by decide)⟩

end NSM
